import Mathlib

/-!
Shallow embedding of the incremental semantic-analysis core of the
rust-analyzer snapshot under verification, together with proofs about the
embedded operations.

Each section names the source file it is translated from.  External-crate
helpers (`VecDeque`, `relative-path`, `Option` combinators) are translated
according to their documented behaviour.  Repository code that is not part
of the provided sources (notably `PerNs`'s combinators) is modelled from the
specification and marked as such in its doc comment.
-/

/- ===================================================================
   Section 1: crates/ra_db/src/source_manager.rs
   =================================================================== -/

/-- Translation of `BoundedQueue<T>`: a `VecDeque` (front at the list head)
plus a capacity.  `cap` and `items` mirror the two fields. -/
structure BoundedQueue (α : Type) where
  cap : Nat
  items : List α
deriving Repr

/-- Translation of `BoundedQueue::with_capacity`. -/
def BoundedQueue.withCapacity (α : Type) (cap : Nat) : BoundedQueue α :=
  { cap := cap, items := [] }

/-- Translation of `BoundedQueue::push`: if the queue is at capacity, pop the
front entry first, then push the item at the back; returns the evicted entry
paired with the new queue. -/
def BoundedQueue.push (q : BoundedQueue α) (item : α) : Option α × BoundedQueue α :=
  if q.items.length == q.cap then
    match q.items with
    | [] => (none, { q with items := [item] })
    | front :: rest => (some front, { q with items := rest ++ [item] })
  else
    (none, { q with items := q.items ++ [item] })

/-- Translation of `SourceManager`: entries are identified by numeric ids
standing for the `Weak<FileData>` references held in the queue. -/
structure SourceManager where
  cache : BoundedQueue Nat

/-- Translation of `SourceManager::with_capacity`. -/
def SourceManager.withCapacity (cap : Nat) : SourceManager :=
  { cache := BoundedQueue.withCapacity Nat cap }

/-- Translation of `impl Default for SourceManager`. -/
def SourceManager.default : SourceManager :=
  SourceManager.withCapacity 64

/-- State for `SourceManager::parse`: the queue of entry ids, the per-entry
tree slot (`FileData.tree`), the per-entry text, liveness of the weak
reference (`Weak::upgrade` succeeding), and the external parser. -/
structure SMState where
  queue : BoundedQueue Nat
  trees : Nat → Option Nat
  texts : Nat → String
  alive : Nat → Bool
  parseText : String → Nat

/-- Pointwise update of a tree-slot map. -/
def updSlot (f : Nat → Option Nat) (k : Nat) (v : Option Nat) : Nat → Option Nat :=
  fun x => if x = k then v else f x

/-- Translation of `SourceManager::parse`: return the cached tree if the slot
is filled; otherwise parse, push the entry into the bounded queue, clear the
tree slot of an evicted entry whose weak reference is still alive, and store
the new tree. -/
def SMState.parse (s : SMState) (d : Nat) : Nat × SMState :=
  match s.trees d with
  | some tree => (tree, s)
  | none =>
    let tree := s.parseText (s.texts d)
    let pushed := s.queue.push d
    let s1 : SMState := { s with queue := pushed.2 }
    let s2 : SMState :=
      match pushed.1 with
      | some evicted =>
        if s1.alive evicted then { s1 with trees := updSlot s1.trees evicted none } else s1
      | none => s1
    (tree, { s2 with trees := updSlot s2.trees d (some tree) })

/- ===================================================================
   Section 2: crates/ra_mbe/src/mbe_expander.rs
   =================================================================== -/

/-- Translation of `ExpandError` (the variants relevant to `expand`). -/
inductive ExpandError where
  | noMatchingRule
  | unexpectedToken
  | bindingError (msg : String)
deriving DecidableEq, Repr

/-- Token trees, bindings, patterns and templates are opaque to
`mbe_expander.rs` itself; they are parameters of the expansion pipeline. -/
structure Rule where
  lhs : Nat
  rhs : Nat
deriving DecidableEq, Repr

/-- Translation of `MacroRules`: the list of rules in declaration order. -/
structure MacroRules where
  rules : List Rule
deriving DecidableEq, Repr

/-- Translation of `expand_rule`: match the input against the rule's
left-hand side, then transcribe the right-hand side under the resulting
bindings.  `matchFn` stands for `matcher::match_` and `transcribeFn` for
`transcriber::transcribe` (both live in other files). -/
def expandRule (matchFn : Nat → Nat → Except ExpandError Nat)
    (transcribeFn : Nat → Nat → Except ExpandError Nat)
    (rule : Rule) (input : Nat) : Except ExpandError Nat := do
  let bindings ← matchFn rule.lhs input
  transcribeFn rule.rhs bindings

/-- Translation of `expand`: the first rule whose `expand_rule` succeeds
wins; if none succeeds the result is `NoMatchingRule`. -/
def expand (matchFn : Nat → Nat → Except ExpandError Nat)
    (transcribeFn : Nat → Nat → Except ExpandError Nat)
    (rules : MacroRules) (input : Nat) : Except ExpandError Nat :=
  match rules.rules.findSome? (fun r => (expandRule matchFn transcribeFn r input).toOption) with
  | some res => .ok res
  | none => .error .noMatchingRule

/- ===================================================================
   Section 3: crates/ra_hir/src/ty/traits.rs (+ the `Ty` data model from
   crates/ra_hir/src/ty, which these sources consume)
   =================================================================== -/

/-- The type representation consumed by the trait solver and method
resolution.  Constructors follow the `Ty` enum of the inference domain;
existential (`Opaque`) types are left out, no claim touches them. -/
inductive Ty where
  | apply (ctor : Nat) (parameters : List Ty)
  | bound (idx : Nat)
  | infer (v : Nat)
  | projection (assocTy : Nat) (parameters : List Ty)
  | unknown

/-- Translation of `Canonical<T>`: a value plus its count of free inference
variables. -/
structure Canonical (α : Type) where
  numVars : Nat
  value : α

/-- Translation of `TraitRef`. -/
structure TraitRef where
  traitId : Nat
  substs : List Ty

/-- Translation of `ProjectionTy`. -/
structure ProjectionTy where
  assocTy : Nat
  parameters : List Ty

/-- Translation of `ProjectionPredicate`. -/
structure ProjectionPredicate where
  projectionTy : ProjectionTy
  ty : Ty

/-- Translation of `Obligation`. -/
inductive Obligation where
  | traitOb (tr : TraitRef)
  | projection (pred : ProjectionPredicate)

/-- Translation of `GenericPredicate`. -/
inductive GenericPredicate where
  | implemented (tr : TraitRef)
  | projection (pred : ProjectionPredicate)
  | error

/-- Translation of `TraitEnvironment`. -/
structure TraitEnvironment where
  predicates : List GenericPredicate

/-- Translation of `InEnvironment<T>`. -/
structure InEnvironment (α : Type) where
  environment : TraitEnvironment
  value : α

/-- Translation of `SolutionVariables`. -/
structure SolutionVariables where
  vars : Canonical (List Ty)

/-- Translation of `Guidance`. -/
inductive Guidance where
  | definite (v : SolutionVariables)
  | suggested (v : SolutionVariables)
  | unknown

/-- Translation of `Solution`. -/
inductive Solution where
  | unique (v : SolutionVariables)
  | ambig (g : Guidance)

/-- Translation of `trait_solve_query`: a canonical projection obligation
whose self type (first projection parameter) is a bound variable
short-circuits to `Ambig(Unknown)`; every other goal is converted and
submitted to the underlying Chalk solver, abstracted here as `chalkSolve`
(covering `to_chalk`, `TraitSolver::solve` and `solution_from_chalk`).  The
source indexes `parameters[0]`, which panics on an empty parameter list;
projections always carry their self type as first parameter. -/
def traitSolveQuery (chalkSolve : Canonical (InEnvironment Obligation) → Option Solution)
    (goal : Canonical (InEnvironment Obligation)) : Option Solution :=
  match goal.value.value with
  | .projection pred =>
    match pred.projectionTy.parameters with
    | .bound _ :: _ => some (.ambig .unknown)
    | _ => chalkSolve goal
  | _ => chalkSolve goal

/- ===================================================================
   Section 4: crates/ra_hir/src/ty/method_resolution.rs
   =================================================================== -/

/-- Translation of `AssocItem` restricted to what `is_valid_candidate`
inspects: a function carries its name and whether it has a `self`
parameter, a const carries its optional name, and type aliases are the
remaining variants (always invalid candidates). -/
inductive AssocItem where
  | function (name : String) (hasSelfParam : Bool)
  | const (name : Option String)
  | typeAlias (id : Nat)

/-- Translation of `LookupMode`. -/
inductive LookupMode where
  | methodCall
  | path
deriving DecidableEq

/-- Translation of `is_valid_candidate`. -/
def isValidCandidate (name : Option String) (mode : LookupMode) (item : AssocItem) : Bool :=
  match item with
  | .function n hasSelf =>
    (match name with
     | some nm => n == nm
     | none => true)
      && (hasSelf || mode == .path)
  | .const cn =>
    (match name with
     | some nm => some nm == cn
     | none => true)
      && mode == .path
  | .typeAlias _ => false

/-- The database and resolver context consumed by method resolution.
`defCrates`, `implsInCrate` (already restricted to the blocks returned by
`lookup_impl_blocks` for the given self type), the trait sources, trait item
lists, the trait solver verdict for `generic_implements_goal`, and the
autoderef chain (`autoderef::autoderef`, defined in another file) are all
queries or helpers external to `method_resolution.rs` and enter as fields. -/
structure MethodDb where
  krate : Option Nat
  defCrates : Ty → Option (List Nat)
  implsInCrate : Nat → Ty → List (List AssocItem)
  inherentTrait : Ty → Option Nat
  envTraitsWithSupers : Ty → List Nat
  traitsInScope : List Nat
  traitItems : Nat → List AssocItem
  traitSolveOk : Nat → Nat → Canonical Ty → Bool
  autoderefChain : Canonical Ty → List (Canonical Ty)

/-- Inner loop of `iterate_inherent_methods` over the items of the impl
blocks of one crate after another, skipping invalid candidates and returning
the first callback hit. -/
def inherentItemsLoop (name : Option String) (mode : LookupMode)
    (callback : Ty → AssocItem → Option α) (tyv : Ty) :
    List AssocItem → Option α
  | [] => none
  | item :: rest =>
    if isValidCandidate name mode item then
      match callback tyv item with
      | some r => some r
      | none => inherentItemsLoop name mode callback tyv rest
    else inherentItemsLoop name mode callback tyv rest

/-- Loop of `iterate_inherent_methods` over one crate's impl blocks. -/
def inherentBlocksLoop (name : Option String) (mode : LookupMode)
    (callback : Ty → AssocItem → Option α) (tyv : Ty) :
    List (List AssocItem) → Option α
  | [] => none
  | block :: rest =>
    match inherentItemsLoop name mode callback tyv block with
    | some r => some r
    | none => inherentBlocksLoop name mode callback tyv rest

/-- Loop of `iterate_inherent_methods` over the crates of `def_crates`. -/
def inherentCratesLoop (db : MethodDb) (name : Option String) (mode : LookupMode)
    (callback : Ty → AssocItem → Option α) (tyv : Ty) :
    List Nat → Option α
  | [] => none
  | kr :: rest =>
    match inherentBlocksLoop name mode callback tyv (db.implsInCrate kr tyv) with
    | some r => some r
    | none => inherentCratesLoop db name mode callback tyv rest

/-- Translation of `iterate_inherent_methods`: `def_crates` returning `None`
propagates through the `?` operator as an overall `None`. -/
def iterateInherentMethods (db : MethodDb) (ty : Canonical Ty) (name : Option String)
    (mode : LookupMode) (callback : Ty → AssocItem → Option α) : Option α :=
  match db.defCrates ty.value with
  | none => none
  | some crates => inherentCratesLoop db name mode callback ty.value crates

/-- Inner loop of `iterate_trait_method_candidates` over one trait's items.
`known` records `known_implemented`; the first valid candidate triggers the
solver check, and a negative verdict aborts the whole trait (`continue
'traits`). -/
def traitItemsLoop (name : Option String) (mode : LookupMode)
    (callback : Ty → AssocItem → Option α)
    (solveOk : Bool) (tyv : Ty) :
    List AssocItem → Bool → Option α
  | [], _ => none
  | item :: rest, known =>
    if isValidCandidate name mode item then
      if !known && !solveOk then none
      else
        match callback tyv item with
        | some r => some r
        | none => traitItemsLoop name mode callback solveOk tyv rest true
    else traitItemsLoop name mode callback solveOk tyv rest known

/-- Outer loop of `iterate_trait_method_candidates` over the candidate
traits. -/
def traitsLoop (db : MethodDb) (krate : Nat) (ty : Canonical Ty) (name : Option String)
    (mode : LookupMode) (callback : Ty → AssocItem → Option α) :
    List Nat → Option α
  | [] => none
  | t :: rest =>
    match traitItemsLoop name mode callback (db.traitSolveOk krate t ty) ty.value
        (db.traitItems t) false with
    | some r => some r
    | none => traitsLoop db krate ty name mode callback rest

/-- Translation of `iterate_trait_method_candidates`: the candidate traits
are the inherent trait of the self type, the environment traits together
with their super-traits, and the traits in scope, in that order. -/
def iterateTraitMethodCandidates (db : MethodDb) (ty : Canonical Ty) (name : Option String)
    (mode : LookupMode) (callback : Ty → AssocItem → Option α) : Option α :=
  match db.krate with
  | none => none
  | some krate =>
    let traits := (db.inherentTrait ty.value).toList
      ++ db.envTraitsWithSupers ty.value ++ db.traitsInScope
    traitsLoop db krate ty name mode callback traits

/-- Loop of `iterate_method_candidates` over the autoderef chain. -/
def derefChainLoop (db : MethodDb) (name : Option String)
    (callback : Ty → AssocItem → Option α) :
    List (Canonical Ty) → Option α
  | [] => none
  | derefedTy :: rest =>
    match iterateInherentMethods db derefedTy name .methodCall callback with
    | some r => some r
    | none =>
      match iterateTraitMethodCandidates db derefedTy name .methodCall callback with
      | some r => some r
      | none => derefChainLoop db name callback rest

/-- Translation of `iterate_method_candidates`: method-call lookup walks the
autoderef chain, trying inherent impls before trait impls at each step;
path lookup does the same once on the receiver type itself. -/
def iterateMethodCandidates (db : MethodDb) (ty : Canonical Ty) (name : Option String)
    (mode : LookupMode) (callback : Ty → AssocItem → Option α) : Option α :=
  match db.krate with
  | none => none
  | some _ =>
    match mode with
    | .methodCall => derefChainLoop db name callback (db.autoderefChain ty)
    | .path =>
      match iterateInherentMethods db ty name .path callback with
      | some r => some r
      | none => iterateTraitMethodCandidates db ty name .path callback

/- ===================================================================
   Section 5: crates/ra_hir_def/src/nameres/path_resolution.rs
   =================================================================== -/

/-- Translation of `Edition` (from `ra_db`). -/
inductive Edition where
  | edition2015
  | edition2018
deriving DecidableEq, Repr

/-- Translation of `PathKind`. -/
inductive PathKind where
  | plain
  | crateKind
  | selfKind
  | superKind
  | abs
  | typeKind (ty : Nat)
  | dollarCrate (krate : Nat)
deriving DecidableEq, Repr

/-- Translation of a path segment (name plus optional type arguments). -/
structure PathSegment where
  name : String
  typeArgs : Option Nat
deriving DecidableEq, Repr

/-- Translation of `Path` (named `HirPath` here; Mathlib occupies `Path`). -/
structure HirPath where
  kind : PathKind
  segments : List PathSegment
deriving DecidableEq, Repr

/-- Translation of `ModuleDefId`, restricted to the shape the segment loop
of `resolve_path_fp_with_macro` distinguishes: modules, enums, enum
variants, and everything else. -/
inductive ModuleDefId where
  | module (krate : Nat) (moduleId : Nat)
  | enumDef (e : Nat)
  | enumVariant (parent : Nat) (localId : Nat)
  | otherDef (d : Nat)
deriving DecidableEq, Repr

/-- Modelled from the spec: `PerNs` (its definition lives in
`nameres/per_ns.rs`, which is not among the provided sources) is "a mapping
from identifier to a per-namespace record `PerNs { types, values, macros }`
where each namespace slot is either empty or resolves to a definition
id". -/
structure PerNs where
  types : Option ModuleDefId
  values : Option ModuleDefId
  macros : Option Nat
deriving DecidableEq, Repr

/-- Modelled from the spec: the empty `PerNs` (`PerNs::none`). -/
def PerNs.none' : PerNs := ⟨none, none, none⟩

/-- Modelled from the spec: `PerNs::types`. -/
def PerNs.typesOnly (d : ModuleDefId) : PerNs := ⟨some d, none, none⟩

/-- Modelled from the spec: `PerNs::macros`. -/
def PerNs.macrosOnly (m : Nat) : PerNs := ⟨none, none, some m⟩

/-- Modelled from the spec: `PerNs::both` (same id in the type and value
namespaces). -/
def PerNs.both (t v : ModuleDefId) : PerNs := ⟨some t, some v, none⟩

/-- Modelled from the spec: emptiness of a `PerNs`. -/
def PerNs.isNone' (p : PerNs) : Bool :=
  p.types.isNone && p.values.isNone && p.macros.isNone

/-- Modelled from the spec: `PerNs::or` as used by
`resolve_name_in_module`, where "the first non-empty `PerNs` wins". -/
def PerNs.or' (a b : PerNs) : PerNs :=
  if a.isNone' then b else a

/-- Modelled from the spec: `PerNs::take_types`. -/
def PerNs.takeTypes (p : PerNs) : Option ModuleDefId := p.types

/-- Translation of `Resolution` (the scope record whose `def` field the
resolver reads). -/
structure Resolution where
  resDef : PerNs
deriving DecidableEq, Repr

/-- A module scope: named items plus legacy-scoped macro definitions. -/
structure ModuleScope where
  itemOf : String → Option Resolution
  legacyMacros : String → Option Nat

/-- Translation of the parts of `CrateDefMap` that path resolution reads.
`modules` is the module arena (total, as arena indexing is), `parentOf` the
parent links, `externPrelude` the crate-name table and `prelude` the
optional prelude module as a (crate, module) pair. -/
structure CrateDefMap where
  krate : Nat
  edition : Edition
  root : Nat
  modules : Nat → ModuleScope
  parentOf : Nat → Option Nat
  externPrelude : String → Option ModuleDefId
  prelude : Option (Nat × Nat)

/-- Translation of `ResolveMode`. -/
inductive ResolveMode where
  | importMode
  | other
deriving DecidableEq, Repr

/-- Translation of `ReachedFixedPoint`. -/
inductive ReachedFixedPoint where
  | yes
  | no
deriving DecidableEq, Repr

/-- Translation of `ResolvePathResult`. -/
structure ResolvePathResult where
  resolvedDef : PerNs
  segmentIndex : Option Nat
  reachedFixedpoint : ReachedFixedPoint
deriving DecidableEq, Repr

/-- Translation of `ResolvePathResult::empty`. -/
def ResolvePathResult.empty (fp : ReachedFixedPoint) : ResolvePathResult :=
  ⟨PerNs.none', none, fp⟩

/-- Translation of `ResolvePathResult::with`. -/
def ResolvePathResult.with (d : PerNs) (fp : ReachedFixedPoint) (idx : Option Nat) :
    ResolvePathResult :=
  ⟨d, idx, fp⟩

/-- The database context of path resolution: def maps of other crates, enum
variant lookup (`enum_data`), and resolution of the remaining path inside
another crate's def map.  The latter is `CrateDefMap::resolve_path` of
`nameres/mod.rs`, which is not among the provided sources; modelled from
the spec: "if it is a module in another crate, recurse into that crate's
def map", yielding a resolved `PerNs` and an optional remaining-segment
index. -/
structure DefDb where
  crateDefMapRoot : Nat → Nat
  enumVariantOf : Nat → String → Option Nat
  resolvePathInCrate : Nat → Nat → HirPath → PerNs × Option Nat

/-- Translation of `resolve_name_in_extern_prelude`. -/
def resolveNameInExternPrelude (m : CrateDefMap) (name : String) : PerNs :=
  match m.externPrelude name with
  | some it => PerNs.typesOnly it
  | none => PerNs.none'

/-- Translation of `resolve_in_prelude`: look the name up in the prelude
module's scope, which may live in another crate.  The scope of the prelude
module is reached through `modules` of the owning def map; since only the
prelude module's scope is read, the owning def map is represented by a
`preludeScope` helper. -/
def resolveInPrelude (preludeScopeOf : Nat × Nat → ModuleScope) (m : CrateDefMap)
    (name : String) : PerNs :=
  match m.prelude with
  | some pr =>
    match (preludeScopeOf pr).itemOf name with
    | some res => res.resDef
    | none => PerNs.none'
  | none => PerNs.none'

/-- Translation of `resolve_name_in_module`: legacy macro scope, module
scope, extern prelude, then standard prelude, combined with `PerNs::or`. -/
def resolveNameInModule (preludeScopeOf : Nat × Nat → ModuleScope) (m : CrateDefMap)
    (module : Nat) (name : String) : PerNs :=
  let fromLegacyMacros :=
    match (m.modules module).legacyMacros name with
    | some mac => PerNs.macrosOnly mac
    | none => PerNs.none'
  let fromScope :=
    match (m.modules module).itemOf name with
    | some res => res.resDef
    | none => PerNs.none'
  let fromExternPrelude :=
    match m.externPrelude name with
    | some it => PerNs.typesOnly it
    | none => PerNs.none'
  let fromPrelude := resolveInPrelude preludeScopeOf m name
  fromLegacyMacros.or' (fromScope.or' (fromExternPrelude.or' fromPrelude))

/-- Translation of `resolve_name_in_crate_root_or_extern_prelude`. -/
def resolveNameInCrateRootOrExternPrelude (m : CrateDefMap) (name : String) : PerNs :=
  let fromCrateRoot :=
    match (m.modules m.root).itemOf name with
    | some res => res.resDef
    | none => PerNs.none'
  let fromExternPrelude := resolveNameInExternPrelude m name
  fromCrateRoot.or' fromExternPrelude

/-- Loop over the remaining enumerated segments of
`resolve_path_fp_with_macro`. -/
def resolveSegmentsLoop (db : DefDb) (m : CrateDefMap) (path : HirPath) :
    List (Nat × PathSegment) → PerNs → ResolvePathResult
  | [], curr => ResolvePathResult.with curr .yes none
  | (i, segment) :: rest, curr =>
    match curr.takeTypes with
    | none => ResolvePathResult.empty .no
    | some currDef =>
      match currDef with
      | .module krate moduleId =>
        if krate != m.krate then
          let innerPath : HirPath := { segments := path.segments.drop i, kind := .selfKind }
          let res := db.resolvePathInCrate krate moduleId innerPath
          ResolvePathResult.with res.1 .yes (res.2.map (fun s => s + i))
        else
          match (m.modules moduleId).itemOf segment.name with
          | some res => resolveSegmentsLoop db m path rest res.resDef
          | none => ResolvePathResult.empty .no
      | .enumDef e =>
        match db.enumVariantOf e segment.name with
        | some localId =>
          let variant := ModuleDefId.enumVariant e localId
          resolveSegmentsLoop db m path rest (PerNs.both variant variant)
        | none =>
          ResolvePathResult.with (PerNs.typesOnly (.enumDef e)) .yes (some i)
      | s =>
        ResolvePathResult.with (PerNs.typesOnly s) .yes (some i)

/-- Translation of `resolve_path_fp_with_macro`: dispatch on the path kind
to obtain the first resolved `PerNs` (consuming a first segment for
`Plain`, `Abs` and the Edition-2015 special case), then walk the remaining
segments. -/
def resolvePathFp (preludeScopeOf : Nat × Nat → ModuleScope) (db : DefDb)
    (m : CrateDefMap) (mode : ResolveMode) (originalModule : Nat) (path : HirPath) :
    ResolvePathResult :=
  let segments := path.segments.enum
  if (path.kind == .plain || path.kind == .abs)
      && (m.edition == .edition2015
        && (path.kind == .abs || mode == .importMode)) then
    match segments with
    | [] => ResolvePathResult.empty .yes
    | (_, segment) :: rest =>
      resolveSegmentsLoop db m path rest
        (resolveNameInCrateRootOrExternPrelude m segment.name)
  else
    match path.kind with
    | .dollarCrate krate =>
      if krate == m.krate then
        resolveSegmentsLoop db m path segments
          (PerNs.typesOnly (.module m.krate m.root))
      else
        resolveSegmentsLoop db m path segments
          (PerNs.typesOnly (.module krate (db.crateDefMapRoot krate)))
    | .crateKind =>
      resolveSegmentsLoop db m path segments (PerNs.typesOnly (.module m.krate m.root))
    | .selfKind =>
      resolveSegmentsLoop db m path segments
        (PerNs.typesOnly (.module m.krate originalModule))
    | .plain =>
      match segments with
      | [] => ResolvePathResult.empty .yes
      | (_, segment) :: rest =>
        resolveSegmentsLoop db m path rest
          (resolveNameInModule preludeScopeOf m originalModule segment.name)
    | .superKind =>
      match m.parentOf originalModule with
      | some p =>
        resolveSegmentsLoop db m path segments (PerNs.typesOnly (.module m.krate p))
      | none => ResolvePathResult.empty .yes
    | .abs =>
      match segments with
      | [] => ResolvePathResult.empty .yes
      | (_, segment) :: rest =>
        match m.externPrelude segment.name with
        | some d => resolveSegmentsLoop db m path rest (PerNs.typesOnly d)
        | none => ResolvePathResult.empty .no
    | .typeKind _ => ResolvePathResult.empty .yes

/- ===================================================================
   Section 6: crates/ra_hir_def/src/nameres/mod_resolution.rs
   =================================================================== -/

/-- Relative paths (the `relative-path` crate) as component lists; `[]` is
the empty path `""`.  Joining with a multi-component literal such as
`"x/mod.rs"` appends both components, so candidate paths are built with
explicit component appends. -/
abbrev RelPath : Type := List String

/-- Behaviour of `RelativePath::ends_with("mod.rs")`: the final component
equals `mod.rs`. -/
def RelPath.endsWithModRs (p : RelPath) : Bool :=
  match List.getLast? p with
  | some c => c == "mod.rs"
  | none => false

/-- Behaviour of `RelativePath::parent`: strip the final component; `None`
on the empty path. -/
def RelPath.parent (p : RelPath) : Option RelPath :=
  match p with
  | [] => none
  | _ :: _ => some (List.dropLast p)

/-- Translation of `ModDir`: the directory the current module's children are
resolved against, and whether the root of that directory is a
non-`mod.rs` file. -/
structure ModDir where
  path : RelPath
  rootNonDirOwner : Bool
deriving DecidableEq, Repr

/-- Translation of `ModDir::root`. -/
def ModDir.root : ModDir := ⟨[], false⟩

/-- File-system access used by `resolve_declaration`: the
`resolve_relative_path` contract maps a referring file and a relative path
to a `FileId`, when the file exists. -/
structure ModFs where
  resolveRelativePath : Nat → RelPath → Option Nat

/-- Translation of `ModDir::resolve_declaration`.  `attrPath` is the parsed
`#[path]` attribute (`attr_to_path` output).  Candidates are tried in
order; the first one the resolver maps to a file wins, and the child
`ModDir` marks `root_non_dir_owner` exactly when the winning candidate is
not a `mod.rs` and no attribute path was given.  On failure the first
candidate is returned as the error. -/
def resolveDeclLoop (fs : ModFs) (fileId : Nat) (name : String) (attrIsSome : Bool)
    (firstCandidate : RelPath) : List RelPath → Except RelPath (Nat × ModDir)
  | [] => .error firstCandidate
  | candidate :: rest =>
    match fs.resolveRelativePath fileId candidate with
    | some fid =>
      if !(RelPath.endsWithModRs candidate || attrIsSome) then
        .ok (fid, ⟨[name], true⟩)
      else
        .ok (fid, ⟨[], false⟩)
    | none => resolveDeclLoop fs fileId name attrIsSome firstCandidate rest

def ModDir.resolveDeclaration (dir : ModDir) (fs : ModFs) (fileId : Nat)
    (name : String) (attrPath : Option RelPath) : Except RelPath (Nat × ModDir) :=
  let candidateFiles : List RelPath :=
    match attrPath with
    | some ap =>
      let base := if dir.rootNonDirOwner then (RelPath.parent dir.path).getD [] else dir.path
      [base ++ ap]
    | none =>
      [dir.path ++ [name ++ ".rs"], dir.path ++ [name, "mod.rs"]]
  resolveDeclLoop fs fileId name attrPath.isSome (candidateFiles.headD []) candidateFiles

/- ===================================================================
   Section 7: crates/ra_ide_api/src/references/rename.rs
   =================================================================== -/

/-- Splitting a file name into stem and extension with the semantics of
`file_stem` / `extension` of the `relative-path` crate: the extension is
the part after the final dot, except when that dot is the leading
character. -/
def stemExt (s : String) : String × Option String :=
  let rev := s.data.reverse
  let extRev := rev.takeWhile (fun c => c ≠ '.')
  match rev.dropWhile (fun c => c ≠ '.') with
  | [] => (s, none)
  | [_] => (s, none)
  | _ :: stemRev => (⟨stemRev.reverse⟩, some ⟨extRev.reverse⟩)

/-- Behaviour of `RelativePath::file_stem`. -/
def RelPath.fileStem (p : RelPath) : Option String :=
  (List.getLast? p).map (fun c => (stemExt c).1)

/-- Behaviour of `RelativePath::join` with a single-component name. -/
def RelPath.join1 (p : RelPath) (c : String) : RelPath := p ++ [c]

/-- Behaviour of `RelativePath::with_file_name`. -/
def RelPath.withFileName (p : RelPath) (name : String) : RelPath :=
  List.dropLast p ++ [name]

/-- Behaviour of `RelativePath::with_extension` on a path with a file
name: replace the final component's extension. -/
def RelPath.withExtension (p : RelPath) (ext : String) : RelPath :=
  match List.getLast? p with
  | none => p
  | some c => List.dropLast p ++ [(stemExt c).1 ++ "." ++ ext]

/-- Translation of `TextRange` (from `ra_syntax`, also used by the rename
edits): a half-open byte interval. -/
structure TextRange where
  start : Nat
  stop : Nat
deriving DecidableEq, Repr

/-- Translation of `TextEdit::replace` as the atomic edit it builds. -/
structure TextEditReplace where
  delete : TextRange
  insert : String
deriving DecidableEq, Repr

/-- Translation of `SourceFileEdit`. -/
structure SourceFileEdit where
  fileId : Nat
  edit : TextEditReplace
deriving DecidableEq, Repr

/-- Translation of `FileSystemEdit` (the `MoveFile` variant built by
`rename_mod`; `dst_source_root` is carried along unchanged). -/
structure MoveFileEdit where
  src : Nat
  dstSourceRoot : Nat
  dstPath : RelPath
deriving DecidableEq, Repr

/-- Translation of `SourceChange` as built by
`SourceChange::from_edits("rename", ..)`. -/
structure SourceChange where
  label : String
  sourceFileEdits : List SourceFileEdit
  fileSystemEdits : List MoveFileEdit
deriving DecidableEq, Repr

/-- Translation of `ModuleSource` as matched by `rename_mod`: the module is
its own source file (with that file's relative path supplied by
`file_relative_path`) or an inline `mod { .. }` block. -/
inductive ModuleSrc where
  | sourceFile (modPath : RelPath)
  | moduleBlock
deriving DecidableEq, Repr

/-- The result of `hir::Module::from_declaration` plus
`definition_source`, as consumed by `rename_mod`: the definition's file id,
its source kind, and the source root of the position's file. -/
structure ModuleInfo where
  defFileId : Nat
  src : ModuleSrc
  dstSourceRoot : Nat
deriving DecidableEq, Repr

/-- Destination path computation of `rename_mod` for a file-backed module:
a `mod.rs` file moves to `grandparent/new_name/mod.rs` (falling back to the
root directory when there is no grandparent); any other file is renamed to
`new_name.rs` in place. -/
def renameModDstPath (modPath : RelPath) (newName : String) : Option RelPath :=
  if RelPath.fileStem modPath == some "mod" then
    (((RelPath.parent modPath).bind RelPath.parent).or (some [])).map
      (fun p => RelPath.join1 (RelPath.join1 p newName) "mod.rs")
  else
    some (RelPath.withExtension (RelPath.withFileName modPath newName) "rs")

/-- Translation of `rename_mod`: one text edit replacing the declaration
name, plus a `MoveFile` when the module is defined by its own source
file. -/
def renameMod (positionFileId : Nat) (nameRange : TextRange)
    (moduleInfo : Option ModuleInfo) (newName : String) : SourceChange :=
  let fileSystemEdits :=
    match moduleInfo with
    | some info =>
      match info.src with
      | .sourceFile modPath =>
        match renameModDstPath modPath newName with
        | some p => [⟨info.defFileId, info.dstSourceRoot, p⟩]
        | none => []
      | .moduleBlock => []
    | none => []
  let edit : SourceFileEdit := ⟨positionFileId, ⟨nameRange, newName⟩⟩
  { label := "rename", sourceFileEdits := [edit], fileSystemEdits := fileSystemEdits }

/- ===================================================================
   Section 8: crates/ra_syntax/src/ptr.rs and
   crates/ra_hir_expand/src/ast_id_map.rs
   =================================================================== -/

/-- Syntax-node kinds, restricted to a representative set: the item-like
kinds accepted by `ast::ModuleItem::cast`, the macro-call kind accepted by
`ast::MacroCall::cast`, and assorted non-item kinds. -/
inductive SyntaxKind where
  | SOURCE_FILE
  | FN_DEF
  | STRUCT_DEF
  | ENUM_DEF
  | TRAIT_DEF
  | MODULE
  | CONST_DEF
  | USE_ITEM
  | IMPL_BLOCK
  | MACRO_CALL
  | BLOCK_EXPR
  | NAME
  | PATH_NODE
  | TOKEN_TREE
deriving DecidableEq, Repr

/-- Success of `ast::ModuleItem::cast` on a node of this kind. -/
def SyntaxKind.isModuleItemKind : SyntaxKind → Bool
  | .FN_DEF | .STRUCT_DEF | .ENUM_DEF | .TRAIT_DEF | .MODULE
  | .CONST_DEF | .USE_ITEM | .IMPL_BLOCK => true
  | _ => false

/-- Success of `ast::MacroCall::cast` on a node of this kind. -/
def SyntaxKind.isMacroCallKind : SyntaxKind → Bool
  | .MACRO_CALL => true
  | _ => false

/-- Translation of `TextRange::is_subrange`: `r` lies inside `outer`. -/
def TextRange.isSubrange (r outer : TextRange) : Bool :=
  outer.start ≤ r.start && r.stop ≤ outer.stop

/-- A syntax node: kind, text range, and child nodes in source order.
Trees are immutable values, mirroring the green-tree structure. -/
inductive SyntaxNode where
  | mk (kind : SyntaxKind) (range : TextRange) (children : List SyntaxNode)

/-- Kind accessor. -/
def SyntaxNode.kind : SyntaxNode → SyntaxKind
  | .mk k _ _ => k

/-- Range accessor (`text_range`). -/
def SyntaxNode.range : SyntaxNode → TextRange
  | .mk _ r _ => r

/-- Children accessor. -/
def SyntaxNode.children : SyntaxNode → List SyntaxNode
  | .mk _ _ cs => cs

mutual
def SyntaxNode.decEq : (a b : SyntaxNode) → Decidable (a = b)
  | .mk k1 r1 cs1, .mk k2 r2 cs2 =>
    if h1 : k1 = k2 then
      if h2 : r1 = r2 then
        match SyntaxNode.decEqList cs1 cs2 with
        | .isTrue h3 => .isTrue (by rw [h1, h2, h3])
        | .isFalse h3 => .isFalse (fun h => h3 (by cases h; rfl))
      else .isFalse (fun h => h2 (by cases h; rfl))
    else .isFalse (fun h => h1 (by cases h; rfl))
def SyntaxNode.decEqList : (xs ys : List SyntaxNode) → Decidable (xs = ys)
  | [], [] => .isTrue rfl
  | [], _ :: _ => .isFalse (by simp)
  | _ :: _, [] => .isFalse (by simp)
  | x :: xs, y :: ys =>
    match SyntaxNode.decEq x y, SyntaxNode.decEqList xs ys with
    | .isTrue h1, .isTrue h2 => .isTrue (by rw [h1, h2])
    | .isFalse h1, _ => .isFalse (fun h => h1 (by cases h; rfl))
    | _, .isFalse h2 => .isFalse (fun h => h2 (by cases h; rfl))
end

instance : DecidableEq SyntaxNode := SyntaxNode.decEq

mutual
/-- Number of nodes in a tree, used as traversal fuel. -/
def SyntaxNode.size : SyntaxNode → Nat
  | .mk _ _ cs => 1 + SyntaxNode.sizeList cs
/-- Number of nodes in a forest. -/
def SyntaxNode.sizeList : List SyntaxNode → Nat
  | [] => 0
  | c :: cs => SyntaxNode.size c + SyntaxNode.sizeList cs
end

mutual
/-- All nodes of a tree in preorder (the node itself first). -/
def SyntaxNode.nodesOf : SyntaxNode → List SyntaxNode
  | .mk k r cs => .mk k r cs :: SyntaxNode.nodesOfList cs
/-- All nodes of a forest. -/
def SyntaxNode.nodesOfList : List SyntaxNode → List SyntaxNode
  | [] => []
  | c :: cs => SyntaxNode.nodesOf c ++ SyntaxNode.nodesOfList cs
end

/-- Source-order siblings: each child ends no later than the next one
starts. -/
def siblingsOrdered : List SyntaxNode → Bool
  | [] => true
  | [_] => true
  | c1 :: c2 :: rest => (c1.range.stop ≤ c2.range.start : Bool) && siblingsOrdered (c2 :: rest)

mutual
/-- Well-formedness of parser output: every node has a nonempty range,
children lie inside their parent's range, and siblings are ordered and
non-overlapping. -/
def SyntaxNode.wf : SyntaxNode → Bool
  | .mk _ r cs =>
    (r.start < r.stop : Bool)
      && cs.all (fun c => TextRange.isSubrange c.range r)
      && siblingsOrdered cs
      && SyntaxNode.wfList cs
/-- Well-formedness of a forest. -/
def SyntaxNode.wfList : List SyntaxNode → Bool
  | [] => true
  | c :: cs => SyntaxNode.wf c && SyntaxNode.wfList cs
end

/-- Translation of `SyntaxNodePtr`: a range plus a kind. -/
structure SyntaxNodePtr where
  range : TextRange
  kind : SyntaxKind
deriving DecidableEq, Repr

/-- Translation of `SyntaxNodePtr::new`. -/
def SyntaxNodePtr.new (node : SyntaxNode) : SyntaxNodePtr :=
  ⟨node.range, node.kind⟩

/-- The successor chain of `SyntaxNodePtr::to_node`: starting from the
root, repeatedly descend to the first child whose range contains the
pointer's range.  The chain is bounded by the tree size, supplied as
fuel (the source iterator is bounded by the tree height). -/
def ptrChainAux : Nat → SyntaxNodePtr → SyntaxNode → List SyntaxNode
  | 0, _, t => [t]
  | fuel + 1, p, t =>
    t ::
      (match t.children.find? (fun c => TextRange.isSubrange p.range c.range) with
       | some c => ptrChainAux fuel p c
       | none => [])

/-- Translation of `SyntaxNodePtr::to_node`: the first node along the
containment chain with the recorded range and kind; `none` when the source
would panic. -/
def SyntaxNodePtr.toNode (p : SyntaxNodePtr) (root : SyntaxNode) : Option SyntaxNode :=
  (ptrChainAux root.size p root).find?
    (fun it => it.range == p.range && it.kind == p.kind)

/-- Translation of the `bfs` helper of `ast_id_map.rs`: visit a forest
layer by layer, each next layer being the concatenated children of the
current one.  The number of layers is bounded by the total size, supplied
as fuel. -/
def bfsAux : Nat → List SyntaxNode → List SyntaxNode
  | 0, _ => []
  | fuel + 1, layer => layer ++ bfsAux fuel (layer.flatMap SyntaxNode.children)

/-- The visit order of `bfs` started on a root node. -/
def bfsList (root : SyntaxNode) : List SyntaxNode :=
  bfsAux root.size [root]

/-- Whether `from_source` allocates an id for this node: it casts to
`ast::ModuleItem` or to `ast::MacroCall`. -/
def allocates (n : SyntaxNode) : Bool :=
  n.kind.isModuleItemKind || n.kind.isMacroCallKind

/-- Translation of `AstIdMap`: the arena of allocated pointers, ids being
positions. -/
structure AstIdMap where
  arena : List SyntaxNodePtr
deriving DecidableEq, Repr

/-- Translation of `AstIdMap::from_source`: walk the tree breadth-first and
allocate a pointer for every item-like or macro-call node. -/
def AstIdMap.fromSource (root : SyntaxNode) : AstIdMap :=
  ⟨((bfsList root).filter allocates).map SyntaxNodePtr.new⟩

/-- Translation of `AstIdMap::erased_ast_id` (the core of
`AstIdMap::ast_id`): the first arena index holding this node's pointer;
`none` when the source would panic. -/
def AstIdMap.erasedAstId (m : AstIdMap) (item : SyntaxNode) : Option Nat :=
  m.arena.findIdx? (fun p => p == SyntaxNodePtr.new item)

/-- Translation of `AstIdMap::get` (erased): the pointer stored at the
id's arena position. -/
def AstIdMap.get (m : AstIdMap) (id : Nat) : Option SyntaxNodePtr :=
  m.arena.get? id

/-- Layer iteration: `bindK k L` is the `k`-th breadth-first layer below
the forest `L`. -/
def bindK : Nat → List SyntaxNode → List SyntaxNode
  | 0, L => L
  | k + 1, L => bindK k (L.flatMap SyntaxNode.children)

/-- Concatenation of the first `m` breadth-first layers below `L`. -/
def joinUpTo : Nat → List SyntaxNode → List SyntaxNode
  | 0, _ => []
  | m + 1, L => L ++ joinUpTo m (L.flatMap SyntaxNode.children)

/-- A strict descendant: a node inside a child's subtree. -/
def SyntaxNode.strictDesc (a n : SyntaxNode) : Prop :=
  ∃ c ∈ a.children, n ∈ SyntaxNode.nodesOf c

/- ===================================================================
   Section 9: specification-side characterizations used by the claims
   =================================================================== -/

/-- The first non-empty `PerNs` of a candidate list (empty if all are
empty): the specification's "the first non-empty `PerNs` wins". -/
def firstNonEmptyPerNs (l : List PerNs) : PerNs :=
  (l.find? (fun p => !p.isNone')).getD PerNs.none'

/-- The claim's method-call candidate filter: an associated function whose
name matches and which has a `self` parameter. -/
def matchesForMethodCall (name : String) : AssocItem → Bool
  | .function n hasSelf => n == name && hasSelf
  | _ => false

/-- The claim's path-lookup candidate filter: an associated function whose
name matches (`self` parameter not required), or an associated constant
whose name matches. -/
def matchesForPath (name : String) : AssocItem → Bool
  | .function n _ => n == name
  | .const cn => some name == cn
  | .typeAlias _ => false

/-- Inherent-impl candidates for one (derefed) self type, in crate order,
impl-block order, item order, filtered by the given predicate. -/
def inherentCandidates (db : MethodDb) (pred : AssocItem → Bool) (tyv : Ty) :
    List AssocItem :=
  ((db.defCrates tyv).getD []).flatMap
    (fun kr => (db.implsInCrate kr tyv).flatMap (fun block => block.filter pred))

/-- Trait-impl candidates for one (derefed) self type: the items of each
candidate trait the solver confirms for this self type, filtered by the
given predicate, in trait order. -/
def traitCandidates (db : MethodDb) (krate : Nat) (pred : AssocItem → Bool)
    (ty : Canonical Ty) : List AssocItem :=
  ((db.inherentTrait ty.value).toList ++ db.envTraitsWithSupers ty.value
      ++ db.traitsInScope).flatMap
    (fun t => if db.traitSolveOk krate t ty then (db.traitItems t).filter pred else [])

/-- The claim's candidate sequence for a method call: along the autoderef
chain in order, inherent candidates before trait candidates, each paired
with the derefed self type passed to the callback. -/
def methodCallCandidates (db : MethodDb) (krate : Nat) (name : String)
    (ty : Canonical Ty) : List (Ty × AssocItem) :=
  (db.autoderefChain ty).flatMap
    (fun d =>
      (inherentCandidates db (matchesForMethodCall name) d.value
          ++ traitCandidates db krate (matchesForMethodCall name) d).map
        (fun it => (d.value, it)))

/-- The claim's candidate sequence for path lookup: no deref chain, inherent
candidates before trait candidates on the receiver type itself. -/
def pathCandidates (db : MethodDb) (krate : Nat) (name : String)
    (ty : Canonical Ty) : List (Ty × AssocItem) :=
  (inherentCandidates db (matchesForPath name) ty.value
      ++ traitCandidates db krate (matchesForPath name) ty).map
    (fun it => (ty.value, it))

/- ===================================================================
   Section 10: concrete inputs used to evaluate the theorems
   =================================================================== -/

/-- A module scope holding one type `x` and no legacy macros. -/
def c3Scope : ModuleScope :=
  ⟨fun n => if n = "x" then some ⟨PerNs.typesOnly (.otherDef 5)⟩ else none, fun _ => none⟩

/-- A one-module def map on Edition 2018. -/
def c3Map : CrateDefMap :=
  ⟨0, .edition2018, 0, fun _ => c3Scope, fun _ => none, fun _ => none, none⟩

/-- A trivial database for path resolution. -/
def c3Db : DefDb :=
  ⟨fun _ => 0, fun _ _ => none, fun _ _ _ => (PerNs.none', none)⟩

/-- The empty prelude-scope accessor. -/
def c3PreludeScopeOf : Nat × Nat → ModuleScope :=
  fun _ => ⟨fun _ => none, fun _ => none⟩

/-- The path `x`. -/
def c3Path : HirPath := ⟨.plain, [⟨"x", none⟩]⟩

/-- A struct type and a reference to it, for the method-lookup witness. -/
def c4S : Ty := Ty.apply 0 []

/-- The reference type in the autoderef chain of the witness. -/
def c4RefS : Ty := Ty.apply 1 [Ty.apply 0 []]

/-- A method-resolution context: one crate, one impl block on `c4S` with a
method `foo` and a const `foo`, one trait in scope with a method `bar`. -/
def c4Db : MethodDb where
  krate := some 0
  defCrates := fun t =>
    match t with
    | .apply 0 _ => some [0]
    | .apply 1 _ => some [0]
    | _ => none
  implsInCrate := fun _ t =>
    match t with
    | .apply 0 _ => [[AssocItem.function "foo" true, AssocItem.const (some "foo")]]
    | _ => []
  inherentTrait := fun _ => none
  envTraitsWithSupers := fun _ => []
  traitsInScope := [3]
  traitItems := fun t => if t = 3 then [AssocItem.function "bar" true] else []
  traitSolveOk := fun _ _ _ => true
  autoderefChain := fun c => [c, ⟨c.numVars, c4S⟩]

/-- The first-hit callback of `lookup_method`. -/
def c4Callback : Ty → AssocItem → Option (Ty × String) :=
  fun t it =>
    match it with
    | AssocItem.function n _ => some (t, n)
    | _ => none

/-- A small well-formed source tree: a function (containing a nested macro
call) followed by a top-level macro call. -/
def c1DemoRoot : SyntaxNode :=
  .mk .SOURCE_FILE ⟨0, 20⟩
    [.mk .FN_DEF ⟨0, 8⟩ [.mk .BLOCK_EXPR ⟨4, 8⟩ [.mk .MACRO_CALL ⟨5, 7⟩ []]],
     .mk .MACRO_CALL ⟨9, 15⟩ [.mk .TOKEN_TREE ⟨11, 14⟩ []]]

/-- The same shape of tree, used for the id-ordering witness. -/
def c2DemoRoot : SyntaxNode :=
  .mk .SOURCE_FILE ⟨0, 20⟩
    [.mk .FN_DEF ⟨0, 8⟩ [.mk .BLOCK_EXPR ⟨4, 8⟩ [.mk .MACRO_CALL ⟨5, 7⟩ []]],
     .mk .MACRO_CALL ⟨9, 15⟩ [.mk .TOKEN_TREE ⟨11, 14⟩ []]]

/-- A tree holding one macro call, whose pointer is taken. -/
def c8DemoRoot : SyntaxNode :=
  .mk .SOURCE_FILE ⟨0, 4⟩ [.mk .MACRO_CALL ⟨0, 3⟩ []]

/-- A different (edited) version of the file's tree, in which the recorded
pointer no longer resolves. -/
def c8OtherRoot : SyntaxNode :=
  .mk .SOURCE_FILE ⟨0, 2⟩ []

/- ===================================================================
   Theorems
   =================================================================== -/

/-- C5: for every canonical projection obligation whose self type (the
first parameter of the projection) is a bound variable, `trait_solve_query`
returns `Some(Ambig(Unknown))` for every underlying Chalk solver, i.e.
without submitting the goal to it. -/
theorem trait_solve_short_circuits_bound_projection :
    ∀ (chalkSolve : Canonical (InEnvironment Obligation) → Option Solution)
      (goal : Canonical (InEnvironment Obligation))
      (pred : ProjectionPredicate) (i : Nat) (rest : List Ty),
    goal.value.value = Obligation.projection pred →
    pred.projectionTy.parameters = Ty.bound i :: rest →
    traitSolveQuery chalkSolve goal = some (Solution.ambig Guidance.unknown) := by
  intro chalkSolve goal pred i rest hgoal hparams
  obtain ⟨⟨assoc, params⟩, predTy⟩ := pred
  simp only [ProjectionTy.parameters] at hparams
  subst hparams
  unfold traitSolveQuery
  rw [hgoal]

/-- C5 witness: a concrete projection goal with bound self type
short-circuits for a solver that itself would answer `none`. -/
theorem trait_solve_short_circuits_bound_projection_witness :
    (Canonical.mk 1 (InEnvironment.mk ⟨[]⟩
        (Obligation.projection ⟨⟨7, [Ty.bound 0, Ty.unknown]⟩, Ty.unknown⟩))).value.value
      = Obligation.projection ⟨⟨7, [Ty.bound 0, Ty.unknown]⟩, Ty.unknown⟩
    ∧ (ProjectionPredicate.mk ⟨7, [Ty.bound 0, Ty.unknown]⟩ Ty.unknown).projectionTy.parameters
      = Ty.bound 0 :: [Ty.unknown]
    ∧ traitSolveQuery (fun _ => none)
        (Canonical.mk 1 (InEnvironment.mk ⟨[]⟩
          (Obligation.projection ⟨⟨7, [Ty.bound 0, Ty.unknown]⟩, Ty.unknown⟩)))
      = some (Solution.ambig Guidance.unknown) :=
  ⟨rfl, rfl,
    trait_solve_short_circuits_bound_projection (fun _ => none) _ _ 0 [Ty.unknown] rfl rfl⟩

/-- Helper: `Except.toOption` yields `some` exactly on `ok`. -/
theorem except_toOption_eq_some {ε α : Type} (e : Except ε α) (a : α) :
    e.toOption = some a ↔ e = .ok a := by
  cases e <;> simp [Except.toOption]

/-- C9: `expand` returns the transcription of the first rule (in
declaration order) whose match-and-transcribe pipeline succeeds, and
`NoMatchingRule` when no rule succeeds. -/
theorem expand_first_matching_rule :
    ∀ (matchFn transcribeFn : Nat → Nat → Except ExpandError Nat)
      (rules : MacroRules) (input : Nat),
    ((∀ r ∈ rules.rules, ∀ out, expandRule matchFn transcribeFn r input ≠ .ok out) →
      expand matchFn transcribeFn rules input = .error .noMatchingRule)
    ∧ (∀ (before : List Rule) (r : Rule) (after : List Rule) (out : Nat),
        rules.rules = before ++ r :: after →
        expandRule matchFn transcribeFn r input = .ok out →
        (∀ r' ∈ before, ∀ o, expandRule matchFn transcribeFn r' input ≠ .ok o) →
        expand matchFn transcribeFn rules input = .ok out) := by
  intro matchFn transcribeFn rules input
  constructor
  · intro hnone
    unfold expand
    have : rules.rules.findSome?
        (fun r => (expandRule matchFn transcribeFn r input).toOption) = none := by
      rw [List.findSome?_eq_none_iff]
      intro r hr
      cases he : (expandRule matchFn transcribeFn r input).toOption with
      | none => rfl
      | some v =>
        exact absurd ((except_toOption_eq_some _ _).1 he) (hnone r hr v)
    rw [this]
  · intro before r after out hsplit hok hbefore
    unfold expand
    have hfind : rules.rules.findSome?
        (fun r => (expandRule matchFn transcribeFn r input).toOption) = some out := by
      rw [hsplit, List.findSome?_append]
      have hleft : before.findSome?
          (fun r => (expandRule matchFn transcribeFn r input).toOption) = none := by
        rw [List.findSome?_eq_none_iff]
        intro r' hr'
        cases he : (expandRule matchFn transcribeFn r' input).toOption with
        | none => rfl
        | some v =>
          exact absurd ((except_toOption_eq_some _ _).1 he) (hbefore r' hr' v)
      rw [hleft]
      simp only [Option.none_or, List.findSome?_cons, hok, Except.toOption]
    rw [hfind]

/-- C9 witness: with a concrete matcher and transcriber, the second rule is
the first whose match succeeds and its transcription is returned. -/
theorem expand_first_matching_rule_witness :
    (MacroRules.mk [⟨1, 10⟩, ⟨2, 20⟩]).rules = [Rule.mk 1 10] ++ Rule.mk 2 20 :: []
    ∧ expandRule (fun l i => if l == i then .ok 5 else .error .unexpectedToken)
        (fun r b => .ok (r + b)) (Rule.mk 2 20) 2 = .ok 25
    ∧ (∀ r' ∈ [Rule.mk 1 10], ∀ o,
        expandRule (fun l i => if l == i then .ok 5 else .error .unexpectedToken)
          (fun r b => .ok (r + b)) r' 2 ≠ .ok o)
    ∧ expand (fun l i => if l == i then .ok 5 else .error .unexpectedToken)
        (fun r b => .ok (r + b)) (MacroRules.mk [⟨1, 10⟩, ⟨2, 20⟩]) 2 = .ok 25 := by
  have hbefore : ∀ r' ∈ [Rule.mk 1 10], ∀ o,
      expandRule (fun l i => if l == i then .ok 5 else .error .unexpectedToken)
        (fun r b => .ok (r + b)) r' 2 ≠ .ok o := by
    intro r' hr' o h
    have hr'' : r' = Rule.mk 1 10 := by simpa using hr'
    subst hr''
    have he : expandRule (fun l i => if l == i then .ok 5 else .error .unexpectedToken)
        (fun r b => .ok (r + b)) (Rule.mk 1 10) 2
        = Except.error ExpandError.unexpectedToken := rfl
    rw [he] at h
    exact Except.noConfusion h
  exact ⟨rfl, rfl, hbefore,
    (expand_first_matching_rule _ _ (MacroRules.mk [⟨1, 10⟩, ⟨2, 20⟩]) 2).2
      [Rule.mk 1 10] (Rule.mk 2 20) [] 25 rfl rfl hbefore⟩

/-- Helper: `push` keeps the length within a positive capacity. -/
theorem bounded_queue_push_length (cap : Nat) (items : List Nat) (x : Nat)
    (hcap : 1 ≤ cap) (hlen : items.length ≤ cap) :
    ((BoundedQueue.mk cap items).push x).2.items.length ≤ cap := by
  unfold BoundedQueue.push
  by_cases hfull : items.length = cap
  · have hb : (items.length == cap) = true := by simp [hfull]
    simp only [hb, if_true]
    cases items with
    | nil => simp at hfull; omega
    | cons front rest =>
      simp only []
      simp at hfull ⊢
      omega
  · have hb : (items.length == cap) = false := by simp [hfull]
    simp only [hb, Bool.false_eq_true, if_false]
    simp
    omega

/-- Helper: `push` into a full (positive-capacity) queue evicts the front
entry and appends at the back. -/
theorem bounded_queue_push_full (cap : Nat) (items : List Nat) (x : Nat)
    (hcap : 1 ≤ cap) (hfull : items.length = cap) :
    ((BoundedQueue.mk cap items).push x).1 = items.head?
    ∧ ((BoundedQueue.mk cap items).push x).2.items = items.tail ++ [x] := by
  unfold BoundedQueue.push
  have hb : (items.length == cap) = true := by simp [hfull]
  simp only [hb, if_true]
  cases items with
  | nil => simp at hfull; omega
  | cons front rest => simp

/-- C7 counterexample: for a queue of capacity 0 (constructible through
`SourceManager::with_capacity`), `push` does not preserve the invariant
that the length never exceeds the capacity: the empty queue is at
capacity, `pop_front` evicts nothing, and the pushed item brings the
length to 1. -/
theorem bounded_queue_cap_zero_counterexample :
    (BoundedQueue.mk 0 ([] : List Nat)).items.length ≤ (BoundedQueue.mk 0 ([] : List Nat)).cap
    ∧ ¬ (((BoundedQueue.mk 0 ([] : List Nat)).push 7).2.items.length
        ≤ (BoundedQueue.mk 0 ([] : List Nat)).cap) := by
  constructor
  · decide
  · intro h
    have h1 : ((BoundedQueue.mk 0 ([] : List Nat)).push 7).2.items.length = 1 := rfl
    have h2 : (BoundedQueue.mk 0 ([] : List Nat)).cap = 0 := rfl
    rw [h1, h2] at h
    omega

/-- C7 (amended: for queues whose capacity is at least 1): the default
`SourceManager` has capacity 64; `push` preserves `length ≤ capacity`; a
push into a full queue evicts exactly the front (least recently inserted)
entry and appends at the back; and when `parse` evicts an entry that is
still alive (and distinct from the entry being parsed), the evicted
entry's tree slot becomes `None`. -/
theorem source_manager_bounded_cache :
    ∀ (q : BoundedQueue Nat) (x : Nat) (s : SMState) (d e : Nat),
    1 ≤ q.cap → q.items.length ≤ q.cap →
    (SourceManager.default.cache.cap = 64
      ∧ (q.push x).2.items.length ≤ q.cap
      ∧ (q.items.length = q.cap →
          (q.push x).1 = q.items.head? ∧ (q.push x).2.items = q.items.tail ++ [x])
      ∧ (s.trees d = none → (s.queue.push d).1 = some e → s.alive e = true → e ≠ d →
          (s.parse d).2.trees e = none)) := by
  intro q x s d e hcap hlen
  obtain ⟨cap, items⟩ := q
  refine ⟨rfl, bounded_queue_push_length cap items x hcap hlen,
    fun hfull => bounded_queue_push_full cap items x hcap hfull, ?_⟩
  intro htree hevict halive hne
  unfold SMState.parse
  rw [htree]
  simp only [hevict, halive, if_true]
  simp [updSlot, hne]

/-- C7 witness: the amended statement evaluated on a concrete full queue of
capacity 2 and a concrete eviction during `parse`. -/
theorem source_manager_bounded_cache_witness :
    1 ≤ (BoundedQueue.mk 2 [10, 11]).cap
    ∧ [10, 11].length ≤ 2
    ∧ (SourceManager.default.cache.cap = 64
      ∧ ((BoundedQueue.mk 2 [10, 11]).push 12).2.items.length ≤ 2
      ∧ ([10, 11].length = 2 →
          ((BoundedQueue.mk 2 [10, 11]).push 12).1 = some 10
          ∧ ((BoundedQueue.mk 2 [10, 11]).push 12).2.items = [11, 12])
      ∧ ((SMState.mk (BoundedQueue.mk 2 [10, 11]) (fun n => if n = 3 then none else some 0)
            (fun _ => "") (fun _ => true) (fun _ => 9)).trees 3 = none →
          ((BoundedQueue.mk 2 [10, 11]).push 3).1 = some 10 →
          (fun _ => true : Nat → Bool) 10 = true → 10 ≠ 3 →
          ((SMState.mk (BoundedQueue.mk 2 [10, 11]) (fun n => if n = 3 then none else some 0)
            (fun _ => "") (fun _ => true) (fun _ => 9)).parse 3).2.trees 10 = none)) :=
  ⟨by decide, by decide,
    source_manager_bounded_cache (BoundedQueue.mk 2 [10, 11]) 12
      (SMState.mk (BoundedQueue.mk 2 [10, 11]) (fun n => if n = 3 then none else some 0)
        (fun _ => "") (fun _ => true) (fun _ => 9)) 3 10 (by decide) (by decide)⟩

/-- C6: for a `mod x;` declaration without a `#[path]` attribute,
`resolve_declaration` tries `x.rs` then `x/mod.rs` relative to the current
module directory, returns the first candidate the relative-path resolver
maps to a file (marking the child directory non-dir-owner exactly when the
winning candidate does not end in `mod.rs`, there being no attribute
path), and on failure returns the first candidate (`x.rs`) as the
error. -/
theorem resolve_declaration_candidate_order :
    ∀ (dir : ModDir) (fs : ModFs) (fileId : Nat) (name : String),
    ModDir.resolveDeclaration dir fs fileId name none =
      (match fs.resolveRelativePath fileId (dir.path ++ [name ++ ".rs"]) with
       | some fid =>
         .ok (fid,
           ⟨if RelPath.endsWithModRs (dir.path ++ [name ++ ".rs"]) then [] else [name],
            !RelPath.endsWithModRs (dir.path ++ [name ++ ".rs"])⟩)
       | none =>
         match fs.resolveRelativePath fileId (dir.path ++ [name, "mod.rs"]) with
         | some fid => .ok (fid, ⟨[], false⟩)
         | none => .error (dir.path ++ [name ++ ".rs"])) := by
  intro dir fs fileId name
  have hc2 : RelPath.endsWithModRs (dir.path ++ [name, "mod.rs"]) = true := by
    unfold RelPath.endsWithModRs
    have hsplit : dir.path ++ [name, "mod.rs"] = (dir.path ++ [name]) ++ ["mod.rs"] := by simp
    rw [hsplit, List.getLast?_concat]
    decide
  unfold ModDir.resolveDeclaration
  simp only [Option.isSome_none, List.headD_cons]
  unfold resolveDeclLoop
  cases hfs1 : fs.resolveRelativePath fileId (dir.path ++ [name ++ ".rs"]) with
  | some fid =>
    simp only [Bool.or_false]
    cases he : RelPath.endsWithModRs (dir.path ++ [name ++ ".rs"]) <;> simp
  | none =>
    unfold resolveDeclLoop
    cases hfs2 : fs.resolveRelativePath fileId (dir.path ++ [name, "mod.rs"]) with
    | some fid => simp [hc2]
    | none => unfold resolveDeclLoop; rfl

/-- Helper: splitting a dot-free file name yields the name and no
extension. -/
theorem stemExt_no_dot (s : String) (h : ∀ c ∈ s.data, c ≠ '.') :
    stemExt s = (s, none) := by
  have hdrop : s.data.reverse.dropWhile (fun c => decide (c ≠ '.')) = [] := by
    rw [List.dropWhile_eq_nil_iff]
    intro x hx
    simp only [decide_eq_true_eq]
    exact h x (List.mem_reverse.mp hx)
  dsimp only [stemExt]
  rw [hdrop]

/-- Helper: appending `"."` then `"rs"` is appending `".rs"`. -/
theorem string_append_dot_rs (s : String) : s ++ "." ++ "rs" = s ++ ".rs" := by
  apply String.ext
  simp [String.data_append]

/-- C10: renaming a module at its declaration site produces a source edit
replacing the declaration identifier; when the module is its own source
file, a `MoveFile` is produced whose destination is
`grandparent/new_name/mod.rs` when the defining file's stem is `mod`, and
`new_name.rs` in the same directory otherwise (for an identifier-shaped
new name, i.e. one without dots). -/
theorem rename_mod_edits :
    ∀ (posFile : Nat) (nameRange : TextRange) (info : ModuleInfo) (modPath : RelPath)
      (newName : String),
    info.src = ModuleSrc.sourceFile modPath →
    (∀ c ∈ newName.data, c ≠ '.') →
    ((renameMod posFile nameRange (some info) newName).sourceFileEdits
        = [⟨posFile, ⟨nameRange, newName⟩⟩]
      ∧ (RelPath.fileStem modPath = some "mod" →
          (renameMod posFile nameRange (some info) newName).fileSystemEdits
            = [⟨info.defFileId, info.dstSourceRoot,
                modPath.dropLast.dropLast ++ [newName, "mod.rs"]⟩])
      ∧ (RelPath.fileStem modPath ≠ some "mod" →
          (renameMod posFile nameRange (some info) newName).fileSystemEdits
            = [⟨info.defFileId, info.dstSourceRoot,
                modPath.dropLast ++ [newName ++ ".rs"]⟩])) := by
  intro posFile nameRange info modPath newName hsrc hnodot
  refine ⟨rfl, ?_, ?_⟩
  · intro hstem
    have hdst : renameModDstPath modPath newName
        = some (modPath.dropLast.dropLast ++ [newName, "mod.rs"]) := by
      unfold renameModDstPath
      have hb : (RelPath.fileStem modPath == some "mod") = true := by
        simp [hstem]
      rw [if_pos hb]
      cases modPath with
      | nil => simp [RelPath.fileStem] at hstem
      | cons a l =>
        unfold RelPath.parent
        simp only [Option.some_bind]
        cases hdl : (a :: l).dropLast with
        | nil => simp [RelPath.join1]
        | cons b m => simp [RelPath.join1, hdl]
    simp [renameMod, hsrc, hdst]
  · intro hstem
    have hdst : renameModDstPath modPath newName
        = some (modPath.dropLast ++ [newName ++ ".rs"]) := by
      unfold renameModDstPath
      have hb : (RelPath.fileStem modPath == some "mod") = false := by
        simpa using hstem
      rw [if_neg (by simp [hb])]
      unfold RelPath.withFileName RelPath.withExtension
      simp only [List.getLast?_concat, List.dropLast_concat]
      rw [stemExt_no_dot newName hnodot]
      rw [string_append_dot_rs]
    simp [renameMod, hsrc, hdst]

/-- C10 witness: renaming module `foo` (file `bar/foo.rs`) to `foo2`
produces the identifier edit and the move to `bar/foo2.rs`. -/
theorem rename_mod_edits_witness :
    (ModuleInfo.mk 3 (ModuleSrc.sourceFile ["bar", "foo.rs"]) 0).src
      = ModuleSrc.sourceFile ["bar", "foo.rs"]
    ∧ (∀ c ∈ "foo2".data, c ≠ '.')
    ∧ ((renameMod 2 ⟨4, 7⟩ (some (ModuleInfo.mk 3 (ModuleSrc.sourceFile ["bar", "foo.rs"]) 0))
          "foo2").sourceFileEdits = [⟨2, ⟨⟨4, 7⟩, "foo2"⟩⟩]
      ∧ (RelPath.fileStem ["bar", "foo.rs"] = some "mod" →
          (renameMod 2 ⟨4, 7⟩ (some (ModuleInfo.mk 3 (ModuleSrc.sourceFile ["bar", "foo.rs"]) 0))
            "foo2").fileSystemEdits
            = [⟨3, 0, (["bar", "foo.rs"] : RelPath).dropLast.dropLast ++ ["foo2", "mod.rs"]⟩])
      ∧ (RelPath.fileStem ["bar", "foo.rs"] ≠ some "mod" →
          (renameMod 2 ⟨4, 7⟩ (some (ModuleInfo.mk 3 (ModuleSrc.sourceFile ["bar", "foo.rs"]) 0))
            "foo2").fileSystemEdits
            = [⟨3, 0, (["bar", "foo.rs"] : RelPath).dropLast ++ ["foo2" ++ ".rs"]⟩])) :=
  ⟨rfl, by decide,
    rename_mod_edits 2 ⟨4, 7⟩ (ModuleInfo.mk 3 (ModuleSrc.sourceFile ["bar", "foo.rs"]) 0)
      ["bar", "foo.rs"] "foo2" rfl (by decide)⟩

/-- Helper: an empty `PerNs` is `PerNs.none'`. -/
theorem perNs_eq_none_of_isNone (p : PerNs) (h : p.isNone' = true) : p = PerNs.none' := by
  obtain ⟨t, v, mc⟩ := p
  simp only [PerNs.isNone', Bool.and_eq_true, Option.isNone_iff_eq_none] at h
  obtain ⟨⟨ht, hv⟩, hm⟩ := h
  subst ht hv hm
  rfl

/-- Helper: a chain of `PerNs.or'` is the first non-empty entry of the
four candidates. -/
theorem or_chain_eq_first_nonempty (a b c d : PerNs) :
    a.or' (b.or' (c.or' d)) = firstNonEmptyPerNs [a, b, c, d] := by
  unfold firstNonEmptyPerNs PerNs.or'
  cases ha : a.isNone'
  · simp [List.find?, ha]
  · cases hb : b.isNone'
    · simp [List.find?, ha, hb]
    · cases hc : c.isNone'
      · simp [List.find?, ha, hb, hc]
      · cases hd : d.isNone'
        · simp [List.find?, ha, hb, hc, hd]
        · simp only [ha, hb, hc, hd, if_true]
          rw [perNs_eq_none_of_isNone a ha, perNs_eq_none_of_isNone b hb,
            perNs_eq_none_of_isNone c hc, perNs_eq_none_of_isNone d hd]
          decide

/-- C3: for a `Plain` path (outside the Edition-2015 import special case,
`Abs` being a different kind), the first segment is resolved by looking
up, in order, the legacy macro scope, the module scope, the extern
prelude, and the standard prelude — the first non-empty `PerNs` winning —
and the overall result is the segment walk seeded with that value. -/
theorem resolve_plain_path_first_segment_order :
    ∀ (ps : Nat × Nat → ModuleScope) (db : DefDb) (m : CrateDefMap) (mode : ResolveMode)
      (om : Nat) (path : HirPath) (seg : PathSegment) (rest : List PathSegment),
    path.kind = .plain →
    path.segments = seg :: rest →
    ¬ (m.edition = .edition2015 ∧ mode = .importMode) →
    (resolveNameInModule ps m om seg.name
        = firstNonEmptyPerNs
            [(match (m.modules om).legacyMacros seg.name with
              | some mac => PerNs.macrosOnly mac
              | none => PerNs.none'),
             (match (m.modules om).itemOf seg.name with
              | some res => res.resDef
              | none => PerNs.none'),
             (match m.externPrelude seg.name with
              | some it => PerNs.typesOnly it
              | none => PerNs.none'),
             resolveInPrelude ps m seg.name]
      ∧ resolvePathFp ps db m mode om path
        = resolveSegmentsLoop db m path (rest.enumFrom 1)
            (resolveNameInModule ps m om seg.name)) := by
  intro ps db m mode om path seg rest hkind hsegs hnot
  obtain ⟨kind, segs⟩ := path
  simp only at hkind hsegs
  subst hkind
  subst hsegs
  constructor
  · unfold resolveNameInModule
    exact or_chain_eq_first_nonempty _ _ _ _
  · have hcond : ((PathKind.plain == PathKind.plain || PathKind.plain == PathKind.abs)
        && (m.edition == Edition.edition2015
          && (PathKind.plain == PathKind.abs || mode == ResolveMode.importMode))) = false := by
      cases hed : m.edition <;> cases hmode : mode <;> simp_all
    unfold resolvePathFp
    rw [hcond]
    simp only [Bool.false_eq_true, if_false, List.enum]
    rfl

/-- C3 witness: resolving the plain path `x` in a concrete def map follows
the four-stage lookup and seeds the segment walk with its result. -/
theorem resolve_plain_path_first_segment_order_witness :
    c3Path.kind = .plain
    ∧ c3Path.segments = PathSegment.mk "x" none :: []
    ∧ ¬ (c3Map.edition = .edition2015 ∧ ResolveMode.other = .importMode)
    ∧ (resolveNameInModule c3PreludeScopeOf c3Map 0 (PathSegment.mk "x" none).name
        = firstNonEmptyPerNs
            [(match (c3Map.modules 0).legacyMacros (PathSegment.mk "x" none).name with
              | some mac => PerNs.macrosOnly mac
              | none => PerNs.none'),
             (match (c3Map.modules 0).itemOf (PathSegment.mk "x" none).name with
              | some res => res.resDef
              | none => PerNs.none'),
             (match c3Map.externPrelude (PathSegment.mk "x" none).name with
              | some it => PerNs.typesOnly it
              | none => PerNs.none'),
             resolveInPrelude c3PreludeScopeOf c3Map (PathSegment.mk "x" none).name]
      ∧ resolvePathFp c3PreludeScopeOf c3Db c3Map .other 0 c3Path
        = resolveSegmentsLoop c3Db c3Map c3Path (([] : List PathSegment).enumFrom 1)
            (resolveNameInModule c3PreludeScopeOf c3Map 0 (PathSegment.mk "x" none).name)) :=
  ⟨rfl, rfl, by decide,
    resolve_plain_path_first_segment_order c3PreludeScopeOf c3Db c3Map .other 0 c3Path
      (PathSegment.mk "x" none) [] rfl rfl (by decide)⟩

/-- Helper: the method-call validity test is the claim's filter. -/
theorem isValid_methodCall_eq (name : String) (it : AssocItem) :
    isValidCandidate (some name) .methodCall it = matchesForMethodCall name it := by
  have hmp : (LookupMode.methodCall == LookupMode.path) = false := rfl
  cases it <;> simp [isValidCandidate, matchesForMethodCall, hmp]

/-- Helper: the path-lookup validity test is the claim's filter. -/
theorem isValid_path_eq (name : String) (it : AssocItem) :
    isValidCandidate (some name) .path it = matchesForPath name it := by
  have hpp : (LookupMode.path == LookupMode.path) = true := rfl
  cases it <;> simp [isValidCandidate, matchesForPath, hpp]

/-- Helper: the item loop of inherent lookup is a first-`some` over the
valid items. -/
theorem inherentItemsLoop_eq {α : Type} (name : Option String) (mode : LookupMode)
    (cb : Ty → AssocItem → Option α) (tyv : Ty) (items : List AssocItem) :
    inherentItemsLoop name mode cb tyv items
      = (items.filter (isValidCandidate name mode)).findSome? (cb tyv) := by
  induction items with
  | nil => rfl
  | cons item rest ih =>
    unfold inherentItemsLoop
    cases hv : isValidCandidate name mode item with
    | true =>
      simp only [if_true, List.filter_cons, hv, List.findSome?_cons]
      cases cb tyv item <;> simp [ih]
    | false =>
      simp only [Bool.false_eq_true, if_false, List.filter_cons, hv]
      exact ih

/-- Helper: the impl-block loop of inherent lookup flattens. -/
theorem inherentBlocksLoop_eq {α : Type} (name : Option String) (mode : LookupMode)
    (cb : Ty → AssocItem → Option α) (tyv : Ty) (blocks : List (List AssocItem)) :
    inherentBlocksLoop name mode cb tyv blocks
      = (blocks.flatMap (fun b => b.filter (isValidCandidate name mode))).findSome?
          (cb tyv) := by
  induction blocks with
  | nil => rfl
  | cons b rest ih =>
    unfold inherentBlocksLoop
    rw [List.flatMap_cons, List.findSome?_append, inherentItemsLoop_eq]
    cases List.findSome? (cb tyv) (b.filter (isValidCandidate name mode)) with
    | some r => rfl
    | none => exact ih

/-- Helper: the crate loop of inherent lookup flattens. -/
theorem inherentCratesLoop_eq {α : Type} (db : MethodDb) (name : Option String)
    (mode : LookupMode) (cb : Ty → AssocItem → Option α) (tyv : Ty) (crates : List Nat) :
    inherentCratesLoop db name mode cb tyv crates
      = (crates.flatMap (fun kr => (db.implsInCrate kr tyv).flatMap
          (fun b => b.filter (isValidCandidate name mode)))).findSome? (cb tyv) := by
  induction crates with
  | nil => rfl
  | cons kr rest ih =>
    unfold inherentCratesLoop
    rw [List.flatMap_cons, List.findSome?_append, inherentBlocksLoop_eq]
    cases List.findSome? (cb tyv)
        ((db.implsInCrate kr tyv).flatMap (fun b => b.filter (isValidCandidate name mode))) with
    | some r => rfl
    | none => exact ih

/-- Helper: inherent lookup is a first-`some` over the flattened valid
items of the def crates. -/
theorem iterateInherentMethods_eq {α : Type} (db : MethodDb) (ty : Canonical Ty)
    (name : Option String) (mode : LookupMode) (cb : Ty → AssocItem → Option α) :
    iterateInherentMethods db ty name mode cb
      = (((db.defCrates ty.value).getD []).flatMap (fun kr =>
          (db.implsInCrate kr ty.value).flatMap
            (fun b => b.filter (isValidCandidate name mode)))).findSome? (cb ty.value) := by
  unfold iterateInherentMethods
  cases h : db.defCrates ty.value with
  | none => rfl
  | some crates => exact inherentCratesLoop_eq db name mode cb ty.value crates

/-- Helper: the trait item loop with `known_implemented` already set is a
first-`some` over the valid items. -/
theorem traitItemsLoop_known_eq {α : Type} (name : Option String) (mode : LookupMode)
    (cb : Ty → AssocItem → Option α) (solveOk : Bool) (tyv : Ty) (items : List AssocItem) :
    traitItemsLoop name mode cb solveOk tyv items true
      = (items.filter (isValidCandidate name mode)).findSome? (cb tyv) := by
  induction items with
  | nil => rfl
  | cons item rest ih =>
    unfold traitItemsLoop
    cases hv : isValidCandidate name mode item with
    | true =>
      simp only [if_true, Bool.not_true, Bool.false_and, Bool.false_eq_true, if_false,
        List.filter_cons, hv, List.findSome?_cons]
      cases cb tyv item <;> simp [ih]
    | false =>
      simp only [Bool.false_eq_true, if_false, List.filter_cons, hv]
      exact ih

/-- Helper: the trait item loop from the start yields the valid items
exactly when the solver confirms the trait, and nothing otherwise. -/
theorem traitItemsLoop_start_eq {α : Type} (name : Option String) (mode : LookupMode)
    (cb : Ty → AssocItem → Option α) (solveOk : Bool) (tyv : Ty) (items : List AssocItem) :
    traitItemsLoop name mode cb solveOk tyv items false
      = (if solveOk then items.filter (isValidCandidate name mode) else []).findSome?
          (cb tyv) := by
  induction items with
  | nil => cases solveOk <;> rfl
  | cons item rest ih =>
    unfold traitItemsLoop
    cases hv : isValidCandidate name mode item with
    | true =>
      cases hs : solveOk with
      | false => simp [hv]
      | true =>
        simp only [if_true, Bool.not_false, Bool.and_true, Bool.not_true, Bool.false_eq_true,
          if_false, List.filter_cons, hv, List.findSome?_cons]
        cases cb tyv item <;> simp [traitItemsLoop_known_eq]
    | false =>
      simp only [Bool.false_eq_true, if_false]
      rw [ih]
      cases solveOk <;> simp [List.filter_cons, hv]

/-- Helper: the trait loop flattens to the solver-gated valid items of
each candidate trait. -/
theorem traitsLoop_eq {α : Type} (db : MethodDb) (krate : Nat) (ty : Canonical Ty)
    (name : Option String) (mode : LookupMode) (cb : Ty → AssocItem → Option α)
    (ts : List Nat) :
    traitsLoop db krate ty name mode cb ts
      = (ts.flatMap (fun t => if db.traitSolveOk krate t ty then
          (db.traitItems t).filter (isValidCandidate name mode) else [])).findSome?
          (cb ty.value) := by
  induction ts with
  | nil => rfl
  | cons t rest ih =>
    unfold traitsLoop
    rw [List.flatMap_cons, List.findSome?_append, traitItemsLoop_start_eq]
    cases List.findSome? (cb ty.value)
        (if db.traitSolveOk krate t ty then
          (db.traitItems t).filter (isValidCandidate name mode) else []) with
    | some r => rfl
    | none => exact ih

/-- Helper: trait-candidate lookup is a first-`some` over the candidate
traits' gated items. -/
theorem iterateTraitMethodCandidates_eq {α : Type} (db : MethodDb) (krate : Nat)
    (ty : Canonical Ty) (name : Option String) (mode : LookupMode)
    (cb : Ty → AssocItem → Option α) (hk : db.krate = some krate) :
    iterateTraitMethodCandidates db ty name mode cb
      = (((db.inherentTrait ty.value).toList ++ db.envTraitsWithSupers ty.value
            ++ db.traitsInScope).flatMap (fun t => if db.traitSolveOk krate t ty then
          (db.traitItems t).filter (isValidCandidate name mode) else [])).findSome?
          (cb ty.value) := by
  unfold iterateTraitMethodCandidates
  rw [hk]
  exact traitsLoop_eq db krate ty name mode cb _

/-- C4: with a method-call lookup, the first callback hit is taken over the
autoderef chain in order, inherent candidates (functions with matching
name and a `self` parameter) before solver-confirmed trait candidates at
each derefed type; with a path lookup the deref chain is skipped and
candidates without a `self` parameter, including associated constants, are
allowed. -/
theorem iterate_method_candidates_first_match :
    ∀ {α : Type} (db : MethodDb) (krate : Nat) (ty : Canonical Ty) (name : String)
      (cb : Ty → AssocItem → Option α),
    db.krate = some krate →
    (iterateMethodCandidates db ty (some name) .methodCall cb
        = (methodCallCandidates db krate name ty).findSome? (fun p => cb p.1 p.2)
      ∧ iterateMethodCandidates db ty (some name) .path cb
        = (pathCandidates db krate name ty).findSome? (fun p => cb p.1 p.2)) := by
  intro α db krate ty name cb hk
  have hMC : isValidCandidate (some name) LookupMode.methodCall = matchesForMethodCall name :=
    funext (isValid_methodCall_eq name)
  have hP : isValidCandidate (some name) LookupMode.path = matchesForPath name :=
    funext (isValid_path_eq name)
  have hpair : ∀ (d : Ty) (l : List AssocItem),
      (l.map (fun it => (d, it))).findSome? (fun p : Ty × AssocItem => cb p.1 p.2)
        = l.findSome? (cb d) := by
    intro d l
    rw [List.findSome?_map]
    rfl
  constructor
  · unfold iterateMethodCandidates
    rw [hk]
    unfold methodCallCandidates inherentCandidates traitCandidates
    induction db.autoderefChain ty with
    | nil => rfl
    | cons d rest ih =>
      unfold derefChainLoop
      rw [List.flatMap_cons, List.findSome?_append, hpair, List.findSome?_append]
      cases h1 : iterateInherentMethods db d (some name) LookupMode.methodCall cb with
      | some r =>
        rw [iterateInherentMethods_eq, hMC] at h1
        rw [h1]
        rfl
      | none =>
        rw [iterateInherentMethods_eq, hMC] at h1
        rw [h1]
        cases h2 : iterateTraitMethodCandidates db d (some name) LookupMode.methodCall cb with
        | some r =>
          rw [iterateTraitMethodCandidates_eq db krate d (some name)
            LookupMode.methodCall cb hk, hMC] at h2
          rw [h2]
          rfl
        | none =>
          rw [iterateTraitMethodCandidates_eq db krate d (some name)
            LookupMode.methodCall cb hk, hMC] at h2
          rw [h2]
          exact ih
  · unfold iterateMethodCandidates
    rw [hk]
    unfold pathCandidates inherentCandidates traitCandidates
    rw [hpair, List.findSome?_append]
    cases h1 : iterateInherentMethods db ty (some name) LookupMode.path cb with
    | some r =>
      rw [iterateInherentMethods_eq, hP] at h1
      rw [h1]
      rfl
    | none =>
      rw [iterateInherentMethods_eq, hP] at h1
      rw [h1]
      rw [iterateTraitMethodCandidates_eq db krate ty (some name) LookupMode.path cb hk, hP]
      rfl

/-- C4 witness: the equivalence evaluated on a concrete receiver whose
deref chain is `[&S, S]`, with a method and a const named `foo`. -/
theorem iterate_method_candidates_first_match_witness :
    c4Db.krate = some 0
    ∧ (iterateMethodCandidates c4Db ⟨0, c4RefS⟩ (some "foo") .methodCall c4Callback
        = (methodCallCandidates c4Db 0 "foo" ⟨0, c4RefS⟩).findSome?
            (fun p => c4Callback p.1 p.2)
      ∧ iterateMethodCandidates c4Db ⟨0, c4RefS⟩ (some "foo") .path c4Callback
        = (pathCandidates c4Db 0 "foo" ⟨0, c4RefS⟩).findSome?
            (fun p => c4Callback p.1 p.2)) :=
  ⟨rfl, iterate_method_candidates_first_match c4Db 0 ⟨0, c4RefS⟩ "foo" c4Callback rfl⟩

/-- Helper: every tree has at least one node. -/
theorem SyntaxNode.size_pos (t : SyntaxNode) : 1 ≤ t.size := by
  cases t with
  | mk k r cs => simp [SyntaxNode.size]

/-- Helper: a member of a forest is no bigger than the forest. -/
theorem SyntaxNode.size_le_sizeList (c : SyntaxNode) (cs : List SyntaxNode) (h : c ∈ cs) :
    c.size ≤ SyntaxNode.sizeList cs := by
  induction cs with
  | nil => cases h
  | cons d rest ih =>
    rcases List.mem_cons.mp h with h1 | h2
    · subst h1
      simp [SyntaxNode.sizeList]
    · have := ih h2
      simp [SyntaxNode.sizeList]
      omega

/-- Helper: membership in the node list of a forest. -/
theorem SyntaxNode.mem_nodesOfList (x : SyntaxNode) (cs : List SyntaxNode) :
    x ∈ SyntaxNode.nodesOfList cs ↔ ∃ c ∈ cs, x ∈ c.nodesOf := by
  induction cs with
  | nil => simp [SyntaxNode.nodesOfList]
  | cons c rest ih => simp [SyntaxNode.nodesOfList, ih]

/-- Helper: a tree is among its own nodes. -/
theorem SyntaxNode.self_mem_nodesOf (t : SyntaxNode) : t ∈ t.nodesOf := by
  cases t with
  | mk k r cs => exact List.mem_cons_self _ _

/-- Helper: membership in a node list decomposes at the root. -/
theorem SyntaxNode.mem_nodesOf_iff (x k r cs) :
    x ∈ SyntaxNode.nodesOf (.mk k r cs) ↔
      x = SyntaxNode.mk k r cs ∨ ∃ c ∈ cs, x ∈ c.nodesOf := by
  show x ∈ SyntaxNode.mk k r cs :: SyntaxNode.nodesOfList cs ↔ _
  simp [SyntaxNode.mem_nodesOfList]

/-- Helper: node membership is transitive. -/
theorem SyntaxNode.mem_nodesOf_trans :
    ∀ (fuel : Nat) (t a x : SyntaxNode), t.size ≤ fuel →
    a ∈ t.nodesOf → x ∈ a.nodesOf → x ∈ t.nodesOf := by
  intro fuel
  induction fuel with
  | zero =>
    intro t a x hs
    have := SyntaxNode.size_pos t
    omega
  | succ fuel ih =>
    intro t a x hs ha hx
    cases t with
    | mk k r cs =>
      rcases (SyntaxNode.mem_nodesOf_iff a k r cs).mp ha with h1 | ⟨c, hc, hac⟩
      · subst h1
        exact hx
      · have hsz : c.size ≤ fuel := by
          have h1 := SyntaxNode.size_le_sizeList c cs hc
          have h2 : SyntaxNode.size (.mk k r cs) = 1 + SyntaxNode.sizeList cs := rfl
          omega
        exact (SyntaxNode.mem_nodesOf_iff x k r cs).mpr
          (Or.inr ⟨c, hc, ih c a x hsz hac hx⟩)

/-- Helper: unpacking well-formedness at a node. -/
theorem SyntaxNode.wf_mk_iff (k r cs) :
    SyntaxNode.wf (.mk k r cs) = true ↔
      (r.start < r.stop
        ∧ (∀ c ∈ cs, TextRange.isSubrange c.range r = true)
        ∧ siblingsOrdered cs = true
        ∧ SyntaxNode.wfList cs = true) := by
  show ((decide (r.start < r.stop))
      && cs.all (fun c => TextRange.isSubrange c.range r)
      && siblingsOrdered cs
      && SyntaxNode.wfList cs) = true ↔ _
  simp [List.all_eq_true]
  tauto

/-- Helper: members of a well-formed forest are well-formed. -/
theorem SyntaxNode.wf_of_mem_wfList (c : SyntaxNode) (cs : List SyntaxNode)
    (hwf : SyntaxNode.wfList cs = true) (h : c ∈ cs) : SyntaxNode.wf c = true := by
  induction cs with
  | nil => cases h
  | cons d rest ih =>
    have hwf' : SyntaxNode.wf d = true ∧ SyntaxNode.wfList rest = true := by
      have : (SyntaxNode.wf d && SyntaxNode.wfList rest) = true := hwf
      simpa using this
    rcases List.mem_cons.mp h with h1 | h2
    · subst h1
      exact hwf'.1
    · exact ih hwf'.2 h2

/-- Helper: every node of a well-formed tree is well-formed. -/
theorem SyntaxNode.wf_of_mem_nodesOf :
    ∀ (fuel : Nat) (t x : SyntaxNode), t.size ≤ fuel →
    SyntaxNode.wf t = true → x ∈ t.nodesOf → SyntaxNode.wf x = true := by
  intro fuel
  induction fuel with
  | zero =>
    intro t x hs
    have := SyntaxNode.size_pos t
    omega
  | succ fuel ih =>
    intro t x hs hwf hx
    cases t with
    | mk k r cs =>
      rcases (SyntaxNode.mem_nodesOf_iff x k r cs).mp hx with h1 | ⟨c, hc, hxc⟩
      · subst h1
        exact hwf
      · have hsz : c.size ≤ fuel := by
          have h1 := SyntaxNode.size_le_sizeList c cs hc
          have h2 : SyntaxNode.size (.mk k r cs) = 1 + SyntaxNode.sizeList cs := rfl
          omega
        have hcwf := SyntaxNode.wf_of_mem_wfList c cs
          ((SyntaxNode.wf_mk_iff k r cs).mp hwf).2.2.2 hc
        exact ih c x hsz hcwf hxc

/-- Helper: every node of a well-formed tree has a nonempty range. -/
theorem SyntaxNode.range_nonempty_of_mem (fuel : Nat) (t x : SyntaxNode)
    (hs : t.size ≤ fuel) (hwf : SyntaxNode.wf t = true) (hx : x ∈ t.nodesOf) :
    x.range.start < x.range.stop := by
  have hxwf := SyntaxNode.wf_of_mem_nodesOf fuel t x hs hwf hx
  cases x with
  | mk k r cs => exact ((SyntaxNode.wf_mk_iff k r cs).mp hxwf).1

/-- Helper: subrange containment is transitive. -/
theorem TextRange.isSubrange_trans (a b c : TextRange)
    (h1 : TextRange.isSubrange a b = true) (h2 : TextRange.isSubrange b c = true) :
    TextRange.isSubrange a c = true := by
  simp [TextRange.isSubrange] at h1 h2 ⊢
  omega

/-- Helper: every node of a well-formed tree lies inside the root range. -/
theorem SyntaxNode.subrange_of_mem :
    ∀ (fuel : Nat) (t x : SyntaxNode), t.size ≤ fuel →
    SyntaxNode.wf t = true → x ∈ t.nodesOf →
    TextRange.isSubrange x.range t.range = true := by
  intro fuel
  induction fuel with
  | zero =>
    intro t x hs
    have := SyntaxNode.size_pos t
    omega
  | succ fuel ih =>
    intro t x hs hwf hx
    cases t with
    | mk k r cs =>
      rcases (SyntaxNode.mem_nodesOf_iff x k r cs).mp hx with h1 | ⟨c, hc, hxc⟩
      · subst h1
        simp [TextRange.isSubrange]
      · have hsz : c.size ≤ fuel := by
          have h1 := SyntaxNode.size_le_sizeList c cs hc
          have h2 : SyntaxNode.size (.mk k r cs) = 1 + SyntaxNode.sizeList cs := rfl
          omega
        have hcwf := SyntaxNode.wf_of_mem_wfList c cs
          ((SyntaxNode.wf_mk_iff k r cs).mp hwf).2.2.2 hc
        have hsub1 := ih c x hsz hcwf hxc
        have hsub2 := ((SyntaxNode.wf_mk_iff k r cs).mp hwf).2.1 c hc
        exact TextRange.isSubrange_trans _ _ _ hsub1 hsub2

/-- Helper: unfolding sibling ordering at two leading children. -/
theorem siblingsOrdered_cons_cons (c d : SyntaxNode) (rest : List SyntaxNode) :
    siblingsOrdered (c :: d :: rest) = true ↔
      (c.range.stop ≤ d.range.start ∧ siblingsOrdered (d :: rest) = true) := by
  show ((decide (c.range.stop ≤ d.range.start)) && siblingsOrdered (d :: rest)) = true ↔ _
  simp

/-- Helper: sibling ordering restricts to the tail. -/
theorem siblingsOrdered_tail (c : SyntaxNode) (cs : List SyntaxNode)
    (h : siblingsOrdered (c :: cs) = true) : siblingsOrdered cs = true := by
  cases cs with
  | nil => rfl
  | cons d rest => exact ((siblingsOrdered_cons_cons c d rest).mp h).2

/-- Helper: an ordered elder sibling ends before any later sibling
starts. -/
theorem sibling_le :
    ∀ (cs : List SyntaxNode) (c x : SyntaxNode),
    siblingsOrdered (c :: cs) = true →
    (∀ y ∈ c :: cs, y.range.start ≤ y.range.stop) →
    x ∈ cs → c.range.stop ≤ x.range.start := by
  intro cs
  induction cs with
  | nil =>
    intro c x _ _ hx
    cases hx
  | cons d rest ih =>
    intro c x hord hle hx
    have hcd := (siblingsOrdered_cons_cons c d rest).mp hord
    rcases List.mem_cons.mp hx with h1 | h2
    · subst h1
      exact hcd.1
    · have hdx := ih d x hcd.2 (fun y hy => hle y (List.mem_cons_of_mem c hy)) h2
      have hd := hle d (by simp)
      omega

/-- Helper: at most one of a list of ordered, individually nonempty
siblings contains a given nonempty range. -/
theorem sibling_unique :
    ∀ (cs : List SyntaxNode) (c1 c2 : SyntaxNode) (r0 : TextRange),
    siblingsOrdered cs = true →
    (∀ y ∈ cs, y.range.start ≤ y.range.stop) →
    r0.start < r0.stop →
    c1 ∈ cs → c2 ∈ cs →
    TextRange.isSubrange r0 c1.range = true →
    TextRange.isSubrange r0 c2.range = true → c1 = c2 := by
  intro cs
  induction cs with
  | nil =>
    intro c1 c2 r0 _ _ _ h1
    cases h1
  | cons c rest ih =>
    intro c1 c2 r0 hord hle hne h1 h2 hs1 hs2
    rcases List.mem_cons.mp h1 with h1a | h1b <;> rcases List.mem_cons.mp h2 with h2a | h2b
    · subst h1a h2a
      rfl
    · exfalso
      subst h1a
      have hlt := sibling_le rest c1 c2 hord hle h2b
      simp [TextRange.isSubrange] at hs1 hs2
      omega
    · exfalso
      subst h2a
      have hlt := sibling_le rest c2 c1 hord hle h1b
      simp [TextRange.isSubrange] at hs1 hs2
      omega
    · exact ih c1 c2 r0 (siblingsOrdered_tail c rest hord)
        (fun y hy => hle y (List.mem_cons_of_mem c hy)) hne h1b h2b hs1 hs2

/-- Helper: resolving a node's own pointer along the containment chain of
a well-formed tree containing it finds a node with the recorded range and
kind. -/
theorem toNode_finds :
    ∀ (fuel : Nat) (t n : SyntaxNode), t.size ≤ fuel →
    SyntaxNode.wf t = true → n ∈ t.nodesOf → n.range.start < n.range.stop →
    ∃ m, (ptrChainAux fuel (SyntaxNodePtr.new n) t).find?
        (fun it => it.range == (SyntaxNodePtr.new n).range
          && it.kind == (SyntaxNodePtr.new n).kind)
      = some m ∧ m.range = n.range ∧ m.kind = n.kind := by
  intro fuel
  induction fuel with
  | zero =>
    intro t n hs
    have := SyntaxNode.size_pos t
    omega
  | succ fuel ih =>
    intro t n hs hwf hn hne
    cases t with
    | mk k r cs =>
      have hwfparts := (SyntaxNode.wf_mk_iff k r cs).mp hwf
      simp only [ptrChainAux, SyntaxNodePtr.new, SyntaxNode.children]
      rw [List.find?_cons]
      cases hhead : ((SyntaxNode.mk k r cs).range == n.range
          && (SyntaxNode.mk k r cs).kind == n.kind) with
      | true =>
        refine ⟨SyntaxNode.mk k r cs, rfl, ?_⟩
        simpa using hhead
      | false =>
        have hn' : ∃ c ∈ cs, n ∈ c.nodesOf := by
          rcases (SyntaxNode.mem_nodesOf_iff n k r cs).mp hn with h1 | h2
          · exfalso
            rw [← h1] at hhead
            simp at hhead
          · exact h2
        obtain ⟨c, hc, hnc⟩ := hn'
        have hszc : c.size ≤ fuel := by
          have h1 := SyntaxNode.size_le_sizeList c cs hc
          have h2 : SyntaxNode.size (.mk k r cs) = 1 + SyntaxNode.sizeList cs := rfl
          omega
        have hcwf := SyntaxNode.wf_of_mem_wfList c cs hwfparts.2.2.2 hc
        have hsubc : TextRange.isSubrange n.range c.range = true :=
          SyntaxNode.subrange_of_mem fuel c n hszc hcwf hnc
        cases hfind : cs.find? (fun c' => TextRange.isSubrange n.range c'.range) with
        | none =>
          exact absurd hsubc (by
            have := List.find?_eq_none.mp hfind c hc
            simpa using this)
        | some c'' =>
          have hc''mem : c'' ∈ cs := List.mem_of_find?_eq_some hfind
          have hc''sub : TextRange.isSubrange n.range c''.range = true := by
            have := List.find?_some hfind
            simpa using this
          have hceq : c'' = c := by
            refine sibling_unique cs c'' c n.range hwfparts.2.2.1 ?_ hne hc''mem hc
              hc''sub hsubc
            intro y hy
            have hywf := SyntaxNode.wf_of_mem_wfList y cs hwfparts.2.2.2 hy
            cases y with
            | mk ky ry cys =>
              have := ((SyntaxNode.wf_mk_iff ky ry cys).mp hywf).1
              simp [SyntaxNode.range] at this ⊢
              omega
          subst hceq
          obtain ⟨m, hm, hmr, hmk⟩ := ih c'' n hszc hcwf hnc hne
          refine ⟨m, ?_, hmr, hmk⟩
          simpa [SyntaxNodePtr.new] using hm

/-- Helper: nodes below a child are nodes of the parent. -/
theorem SyntaxNode.mem_nodesOf_of_child (t c x : SyntaxNode)
    (hc : c ∈ t.children) (hx : x ∈ c.nodesOf) : x ∈ t.nodesOf := by
  cases t with
  | mk k r cs => exact (SyntaxNode.mem_nodesOf_iff x k r cs).mpr (Or.inr ⟨c, hc, hx⟩)

/-- Helper: the breadth-first traversal of the empty forest is empty. -/
theorem bfsAux_nil : ∀ fuel, bfsAux fuel [] = [] := by
  intro fuel
  cases fuel with
  | zero => rfl
  | succ fuel => simp [bfsAux, bfsAux_nil fuel]

/-- Helper: everything the breadth-first traversal visits is a node of a
tree of the start forest. -/
theorem mem_bfsAux : ∀ (fuel : Nat) (L : List SyntaxNode) (x : SyntaxNode),
    x ∈ bfsAux fuel L → ∃ t ∈ L, x ∈ t.nodesOf := by
  intro fuel
  induction fuel with
  | zero =>
    intro L x hx
    cases hx
  | succ fuel ih =>
    intro L x hx
    rcases List.mem_append.mp hx with h1 | h2
    · exact ⟨x, h1, SyntaxNode.self_mem_nodesOf x⟩
    · obtain ⟨t', ht', hxt'⟩ := ih _ x h2
      obtain ⟨t, ht, htc⟩ := List.mem_flatMap.mp ht'
      exact ⟨t, ht, SyntaxNode.mem_nodesOf_of_child t t' x htc hxt'⟩

/-- Helper: iterated layers of the empty forest are empty. -/
theorem bindK_nil : ∀ k, bindK k [] = [] := by
  intro k
  induction k with
  | zero => rfl
  | succ k ih => simpa [bindK] using ih

/-- Helper: layer iteration is monotone in the forest. -/
theorem bindK_mono : ∀ (k : Nat) (L M : List SyntaxNode), L ⊆ M →
    bindK k L ⊆ bindK k M := by
  intro k
  induction k with
  | zero => intro L M h; exact h
  | succ k ih =>
    intro L M h
    refine ih _ _ ?_
    intro x hx
    obtain ⟨a, ha, hxa⟩ := List.mem_flatMap.mp hx
    exact List.mem_flatMap.mpr ⟨a, h ha, hxa⟩

/-- Helper: layer iteration composes additively. -/
theorem bindK_add : ∀ (a b : Nat) (L : List SyntaxNode),
    bindK a (bindK b L) = bindK (a + b) L := by
  intro a b
  induction b generalizing a with
  | zero => intro L; rfl
  | succ b ih =>
    intro L
    show bindK a (bindK b (L.flatMap SyntaxNode.children)) = bindK (a + (b + 1)) L
    rw [ih a (L.flatMap SyntaxNode.children)]
    have : a + (b + 1) = (a + b) + 1 := by omega
    rw [this]
    rfl

/-- Helper: every node of a tree lies in some iterated layer below it. -/
theorem mem_bindK_of_mem_nodesOf :
    ∀ (fuel : Nat) (t a : SyntaxNode), t.size ≤ fuel → a ∈ t.nodesOf →
    ∃ i, a ∈ bindK i [t] := by
  intro fuel
  induction fuel with
  | zero =>
    intro t a hs
    have := SyntaxNode.size_pos t
    omega
  | succ fuel ih =>
    intro t a hs ha
    cases t with
    | mk k r cs =>
      rcases (SyntaxNode.mem_nodesOf_iff a k r cs).mp ha with h1 | ⟨c, hc, hac⟩
      · exact ⟨0, by simp [bindK, h1]⟩
      · have hszc : c.size ≤ fuel := by
          have h1 := SyntaxNode.size_le_sizeList c cs hc
          have h2 : SyntaxNode.size (.mk k r cs) = 1 + SyntaxNode.sizeList cs := rfl
          omega
        obtain ⟨i, hi⟩ := ih c a hszc hac
        refine ⟨i + 1, ?_⟩
        have hsub : bindK i [c] ⊆ bindK i ([SyntaxNode.mk k r cs].flatMap
            SyntaxNode.children) := by
          apply bindK_mono
          intro x hx
          simp at hx
          subst hx
          simp [SyntaxNode.children]
          exact hc
        have : bindK i ([SyntaxNode.mk k r cs].flatMap SyntaxNode.children)
            = bindK (i + 1) [SyntaxNode.mk k r cs] := rfl
        rw [← this]
        exact hsub hi

/-- Helper: a strict descendant lies in a positive iterated layer. -/
theorem strictDesc_bindK (a n : SyntaxNode) (h : SyntaxNode.strictDesc a n) :
    ∃ j, 1 ≤ j ∧ n ∈ bindK j [a] := by
  obtain ⟨c, hc, hnc⟩ := h
  obtain ⟨i, hi⟩ := mem_bindK_of_mem_nodesOf c.size c n (Nat.le_refl _) hnc
  refine ⟨i + 1, by omega, ?_⟩
  have hsub : bindK i [c] ⊆ bindK i ([a].flatMap SyntaxNode.children) := by
    apply bindK_mono
    intro x hx
    simp at hx
    simp [hx, hc]
  have : bindK i ([a].flatMap SyntaxNode.children) = bindK (i + 1) [a] := rfl
  rw [← this]
  exact hsub hi

/-- Helper: the breadth-first traversal splits into the first layers and
the traversal of the remaining layers. -/
theorem bfsAux_split : ∀ (a b : Nat) (L : List SyntaxNode),
    bfsAux (a + b) L = joinUpTo a L ++ bfsAux b (bindK a L) := by
  intro a
  induction a with
  | zero =>
    intro b L
    rw [Nat.zero_add]
    rfl
  | succ a ih =>
    intro b L
    have hadd : (a + 1) + b = (a + b) + 1 := by omega
    rw [hadd]
    show L ++ bfsAux (a + b) (L.flatMap SyntaxNode.children) = _
    rw [ih b (L.flatMap SyntaxNode.children)]
    show _ = (L ++ joinUpTo a (L.flatMap SyntaxNode.children)) ++ _
    rw [List.append_assoc]
    rfl

/-- Helper: an iterated layer is inside any longer layer prefix. -/
theorem mem_joinUpTo_of_bindK :
    ∀ (i m : Nat) (L : List SyntaxNode) (x : SyntaxNode),
    x ∈ bindK i L → i < m → x ∈ joinUpTo m L := by
  intro i
  induction i with
  | zero =>
    intro m L x hx hm
    cases m with
    | zero => omega
    | succ m => exact List.mem_append.mpr (Or.inl hx)
  | succ i ih =>
    intro m L x hx hm
    cases m with
    | zero => omega
    | succ m =>
      exact List.mem_append.mpr (Or.inr (ih m (L.flatMap SyntaxNode.children) x hx (by omega)))

/-- Helper: an iterated layer is inside a sufficiently fueled
traversal. -/
theorem mem_bfsAux_of_bindK :
    ∀ (k fuel : Nat) (L : List SyntaxNode) (x : SyntaxNode),
    x ∈ bindK k L → k < fuel → x ∈ bfsAux fuel L := by
  intro k
  induction k with
  | zero =>
    intro fuel L x hx hf
    cases fuel with
    | zero => omega
    | succ fuel => exact List.mem_append.mpr (Or.inl hx)
  | succ k ih =>
    intro fuel L x hx hf
    cases fuel with
    | zero => omega
    | succ fuel =>
      exact List.mem_append.mpr
        (Or.inr (ih fuel (L.flatMap SyntaxNode.children) x hx (by omega)))

/-- Helper: forest sizes add over concatenation. -/
theorem sizeList_append (l1 l2 : List SyntaxNode) :
    SyntaxNode.sizeList (l1 ++ l2) = SyntaxNode.sizeList l1 + SyntaxNode.sizeList l2 := by
  induction l1 with
  | nil => simp [SyntaxNode.sizeList]
  | cons t rest ih =>
    show SyntaxNode.size t + SyntaxNode.sizeList (rest ++ l2) = _
    rw [ih]
    show _ = SyntaxNode.size t + SyntaxNode.sizeList rest + SyntaxNode.sizeList l2
    omega

/-- Helper: passing to the child layer trades one node per tree. -/
theorem sizeList_flatMap (L : List SyntaxNode) :
    SyntaxNode.sizeList (L.flatMap SyntaxNode.children) + L.length
      = SyntaxNode.sizeList L := by
  induction L with
  | nil => rfl
  | cons t rest ih =>
    show SyntaxNode.sizeList (t.children ++ rest.flatMap SyntaxNode.children)
        + (rest.length + 1) = _
    rw [sizeList_append]
    have hsz : SyntaxNode.size t = 1 + SyntaxNode.sizeList t.children := by
      cases t with
      | mk k r cs => rfl
    show _ = SyntaxNode.size t + SyntaxNode.sizeList rest
    omega

/-- Helper: a member gives a positive forest size. -/
theorem sizeList_pos_of_mem (x : SyntaxNode) (L : List SyntaxNode) (h : x ∈ L) :
    1 ≤ SyntaxNode.sizeList L := by
  have h1 := SyntaxNode.size_le_sizeList x L h
  have h2 := SyntaxNode.size_pos x
  omega

/-- Helper: a nonempty iterated layer bounds its depth by the total
size. -/
theorem bindK_depth_bound : ∀ (i : Nat) (L : List SyntaxNode),
    bindK i L ≠ [] → i + SyntaxNode.sizeList (bindK i L) ≤ SyntaxNode.sizeList L := by
  intro i
  induction i with
  | zero =>
    intro L _
    show 0 + SyntaxNode.sizeList L ≤ SyntaxNode.sizeList L
    omega
  | succ i ih =>
    intro L h
    have hL : L ≠ [] := by
      intro hL
      subst hL
      exact h (bindK_nil (i + 1))
    have hlen : 1 ≤ L.length := by
      cases L with
      | nil => exact absurd rfl hL
      | cons a as => simp
    have hstep : SyntaxNode.sizeList (L.flatMap SyntaxNode.children) + L.length
        = SyntaxNode.sizeList L := sizeList_flatMap L
    have hrec := ih (L.flatMap SyntaxNode.children) h
    show i + 1 + SyntaxNode.sizeList (bindK i (L.flatMap SyntaxNode.children))
        ≤ SyntaxNode.sizeList L
    omega

/-- Helper: a satisfied predicate gives an index within the list. -/
theorem findIdx?_exists {α : Type} (p : α → Bool) :
    ∀ (l : List α), (∃ x ∈ l, p x = true) →
    ∃ i, l.findIdx? p = some i ∧ i < l.length := by
  intro l
  induction l with
  | nil =>
    intro h
    obtain ⟨x, hx, _⟩ := h
    cases hx
  | cons a as ih =>
    intro h
    cases hp : p a with
    | true =>
      refine ⟨0, ?_, by simp⟩
      rw [List.findIdx?_cons, hp]
      simp
    | false =>
      have hx : ∃ x ∈ as, p x = true := by
        obtain ⟨x, hx, hpx⟩ := h
        rcases List.mem_cons.mp hx with h1 | h2
        · subst h1
          rw [hp] at hpx
          cases hpx
        · exact ⟨x, h2, hpx⟩
      obtain ⟨i, hi, hlen⟩ := ih hx
      refine ⟨i + 1, ?_, by simp; omega⟩
      rw [List.findIdx?_cons, hp]
      simp only [Bool.false_eq_true, if_false, List.findIdx?_succ, hi]
      rfl

/-- Helper: searching an appended list skips a wholly unsatisfying
prefix, offsetting indices by its length. -/
theorem findIdx?_append_right {α : Type} (p : α → Bool) :
    ∀ (l1 l2 : List α), (∀ x ∈ l1, p x = false) →
    (l1 ++ l2).findIdx? p = (l2.findIdx? p).map (fun i => i + l1.length) := by
  intro l1
  induction l1 with
  | nil =>
    intro l2 _
    simp
  | cons a as ih =>
    intro l2 hall
    have hpa : p a = false := hall a (by simp)
    rw [List.cons_append, List.findIdx?_cons, hpa]
    simp only [Bool.false_eq_true, if_false, List.findIdx?_succ]
    rw [ih l2 (fun x hx => hall x (List.mem_cons_of_mem a hx))]
    cases l2.findIdx? p with
    | none => simp
    | some j =>
      show some (j + as.length + 1) = some (j + (as.length + 1))
      have harith : j + as.length + 1 = j + (as.length + 1) := by omega
      rw [harith]

/-- Helper: in a duplicate-free list, the element stored at an index is
found back at exactly that index. -/
theorem findIdx?_of_get?_nodup {α : Type} [DecidableEq α] :
    ∀ (l : List α) (i : Nat) (x : α), l.Nodup → l.get? i = some x →
    l.findIdx? (fun y => y == x) = some i := by
  intro l
  induction l with
  | nil =>
    intro i x _ hget
    cases hget
  | cons a as ih =>
    intro i x hnd hget
    cases i with
    | zero =>
      have hax : a = x := by simpa using hget
      subst hax
      rw [List.findIdx?_cons]
      simp
    | succ i =>
      have hget' : as.get? i = some x := by simpa using hget
      have hxmem : x ∈ as := List.get?_mem hget'
      have hax : (a == x) = false := by
        have hne : a ≠ x := by
          intro h
          subst h
          exact (List.nodup_cons.mp hnd).1 hxmem
        simp [hne]
      rw [List.findIdx?_cons, hax]
      simp only [Bool.false_eq_true, if_false, List.findIdx?_succ]
      rw [ih i x (List.nodup_cons.mp hnd).2 hget']
      rfl

/-- Helper: a pointer found in a list prefix is found at an index inside
the prefix. -/
theorem findIdx?_append_left {α : Type} (p : α → Bool) :
    ∀ (l1 l2 : List α), (∃ x ∈ l1, p x = true) →
    ∃ i, (l1 ++ l2).findIdx? p = some i ∧ i < l1.length := by
  intro l1
  induction l1 with
  | nil =>
    intro l2 h
    obtain ⟨x, hx, _⟩ := h
    cases hx
  | cons a as ih =>
    intro l2 h
    cases hp : p a with
    | true =>
      refine ⟨0, ?_, by simp⟩
      rw [List.cons_append, List.findIdx?_cons, hp]
      simp
    | false =>
      have hx : ∃ x ∈ as, p x = true := by
        obtain ⟨x, hx, hpx⟩ := h
        rcases List.mem_cons.mp hx with h1 | h2
        · subst h1
          rw [hp] at hpx
          cases hpx
        · exact ⟨x, h2, hpx⟩
      obtain ⟨i, hi, hlen⟩ := ih l2 hx
      refine ⟨i + 1, ?_, by simp; omega⟩
      rw [List.cons_append, List.findIdx?_cons, hp]
      simp only [Bool.false_eq_true, if_false, List.findIdx?_succ, hi]
      rfl

/-- C1: for every file whose id map was built by `AstIdMap::from_source`
(well-formed tree, duplicate-free arena), resolving an allocated id to its
node and asking the map for that node's id returns the original id:
`ast_id(get(id).to_node(root)) = id`. -/
theorem ast_id_roundtrip :
    ∀ (root : SyntaxNode), SyntaxNode.wf root = true →
    (AstIdMap.fromSource root).arena.Nodup →
    ∀ (id : Nat) (p : SyntaxNodePtr), (AstIdMap.fromSource root).get id = some p →
    ∃ m, SyntaxNodePtr.toNode p root = some m
      ∧ (AstIdMap.fromSource root).erasedAstId m = some id := by
  intro root hwf hnd id p hget
  have hget' : (((bfsList root).filter allocates).map SyntaxNodePtr.new).get? id
      = some p := hget
  rw [List.get?_map] at hget'
  cases h2 : ((bfsList root).filter allocates).get? id with
  | none =>
    rw [h2] at hget'
    cases hget'
  | some n' =>
    rw [h2] at hget'
    have hp : SyntaxNodePtr.new n' = p := by simpa using hget'
    have hmemf : n' ∈ (bfsList root).filter allocates := List.get?_mem h2
    have hmemb : n' ∈ bfsList root := List.mem_of_mem_filter hmemf
    have hnode : n' ∈ root.nodesOf := by
      obtain ⟨t, ht, hnt⟩ := mem_bfsAux root.size [root] n' hmemb
      have : t = root := by simpa using ht
      subst this
      exact hnt
    have hne : n'.range.start < n'.range.stop :=
      SyntaxNode.range_nonempty_of_mem root.size root n' (Nat.le_refl _) hwf hnode
    obtain ⟨m, hfind, hmr, hmk⟩ :=
      toNode_finds root.size root n' (Nat.le_refl _) hwf hnode hne
    have hptr : SyntaxNodePtr.new m = SyntaxNodePtr.new n' := by
      unfold SyntaxNodePtr.new
      rw [hmr, hmk]
    refine ⟨m, ?_, ?_⟩
    · rw [← hp]
      exact hfind
    · show ((((bfsList root).filter allocates).map SyntaxNodePtr.new).findIdx?
        (fun q => q == SyntaxNodePtr.new m)) = some id
      rw [hptr]
      apply findIdx?_of_get?_nodup _ id (SyntaxNodePtr.new n') hnd
      show (((bfsList root).filter allocates).map SyntaxNodePtr.new).get? id
        = some (SyntaxNodePtr.new n')
      rw [List.get?_map, h2]
      rfl

/-- C2: `from_source` assigns ids in breadth-first order: every allocated
strict ancestor of an allocated node has a strictly smaller id, so adding
a nested item appends a new id instead of renumbering existing items. -/
theorem ast_id_bfs_ancestor_smaller :
    ∀ (root a n : SyntaxNode),
    (AstIdMap.fromSource root).arena.Nodup →
    a ∈ root.nodesOf → SyntaxNode.strictDesc a n →
    allocates a = true → allocates n = true →
    ∃ ia ib, (AstIdMap.fromSource root).erasedAstId a = some ia
      ∧ (AstIdMap.fromSource root).erasedAstId n = some ib ∧ ia < ib := by
  intro root a n hnd ha hdesc haa han
  obtain ⟨i, hi⟩ := mem_bindK_of_mem_nodesOf root.size root a (Nat.le_refl _) ha
  obtain ⟨j', hj'1, hj'⟩ := strictDesc_bindK a n hdesc
  have hn_layer : n ∈ bindK (j' + i) [root] := by
    have hsub : bindK j' [a] ⊆ bindK j' (bindK i [root]) := by
      apply bindK_mono
      intro x hx
      simp at hx
      subst hx
      exact hi
    rw [bindK_add] at hsub
    exact hsub hj'
  have hij : i < j' + i := by omega
  have hjne : bindK (j' + i) [root] ≠ [] := List.ne_nil_of_mem hn_layer
  have hbound := bindK_depth_bound (j' + i) [root] hjne
  have hsz1 : 1 ≤ SyntaxNode.sizeList (bindK (j' + i) [root]) :=
    sizeList_pos_of_mem n _ hn_layer
  have hroot : SyntaxNode.sizeList [root] = root.size := by
    show root.size + SyntaxNode.sizeList [] = root.size
    show root.size + 0 = root.size
    omega
  have hjlt : j' + i < root.size := by omega
  have hfuel : root.size = (i + 1) + (root.size - (i + 1)) := by omega
  have hsplitBfs : bfsList root
      = joinUpTo (i + 1) [root]
        ++ bfsAux (root.size - (i + 1)) (bindK (i + 1) [root]) := by
    show bfsAux root.size [root] = _
    conv_lhs => rw [hfuel]
    rw [bfsAux_split]
  have hamem : a ∈ joinUpTo (i + 1) [root] :=
    mem_joinUpTo_of_bindK i (i + 1) [root] a hi (by omega)
  have hnmem : n ∈ bfsAux (root.size - (i + 1)) (bindK (i + 1) [root]) := by
    have hco : bindK ((j' + i) - (i + 1)) (bindK (i + 1) [root])
        = bindK (j' + i) [root] := by
      rw [bindK_add]
      congr 1
      omega
    apply mem_bfsAux_of_bindK ((j' + i) - (i + 1)) _ _ n
    · rw [hco]
      exact hn_layer
    · omega
  have harena : (AstIdMap.fromSource root).arena
      = ((joinUpTo (i + 1) [root]).filter allocates).map SyntaxNodePtr.new
        ++ ((bfsAux (root.size - (i + 1)) (bindK (i + 1) [root])).filter allocates).map
            SyntaxNodePtr.new := by
    show ((bfsList root).filter allocates).map SyntaxNodePtr.new = _
    rw [hsplitBfs, List.filter_append, List.map_append]
  have haP : SyntaxNodePtr.new a
      ∈ ((joinUpTo (i + 1) [root]).filter allocates).map SyntaxNodePtr.new :=
    List.mem_map.mpr ⟨a, List.mem_filter.mpr ⟨hamem, haa⟩, rfl⟩
  have hnP : SyntaxNodePtr.new n
      ∈ ((bfsAux (root.size - (i + 1)) (bindK (i + 1) [root])).filter allocates).map
          SyntaxNodePtr.new :=
    List.mem_map.mpr ⟨n, List.mem_filter.mpr ⟨hnmem, han⟩, rfl⟩
  rw [harena] at hnd
  obtain ⟨-, -, hdisj⟩ := List.nodup_append.mp hnd
  have hnotin : SyntaxNodePtr.new n
      ∉ ((joinUpTo (i + 1) [root]).filter allocates).map SyntaxNodePtr.new :=
    fun hin => hdisj hin hnP
  obtain ⟨ia, hia, hialt⟩ := findIdx?_append_left (fun q => q == SyntaxNodePtr.new a)
    (((joinUpTo (i + 1) [root]).filter allocates).map SyntaxNodePtr.new)
    (((bfsAux (root.size - (i + 1)) (bindK (i + 1) [root])).filter allocates).map
      SyntaxNodePtr.new)
    ⟨SyntaxNodePtr.new a, haP, by simp⟩
  have hallfalse : ∀ x ∈ ((joinUpTo (i + 1) [root]).filter allocates).map SyntaxNodePtr.new,
      (x == SyntaxNodePtr.new n) = false := by
    intro x hx
    cases hbx : x == SyntaxNodePtr.new n with
    | true =>
      exfalso
      have : x = SyntaxNodePtr.new n := by simpa using hbx
      subst this
      exact hnotin hx
    | false => rfl
  obtain ⟨k, hk, _⟩ := findIdx?_exists (fun q => q == SyntaxNodePtr.new n)
    (((bfsAux (root.size - (i + 1)) (bindK (i + 1) [root])).filter allocates).map
      SyntaxNodePtr.new)
    ⟨SyntaxNodePtr.new n, hnP, by simp⟩
  have hib := findIdx?_append_right (fun q => q == SyntaxNodePtr.new n)
    (((joinUpTo (i + 1) [root]).filter allocates).map SyntaxNodePtr.new)
    (((bfsAux (root.size - (i + 1)) (bindK (i + 1) [root])).filter allocates).map
      SyntaxNodePtr.new) hallfalse
  rw [hk] at hib
  refine ⟨ia,
    k + (((joinUpTo (i + 1) [root]).filter allocates).map SyntaxNodePtr.new).length,
    ?_, ?_, by omega⟩
  · show ((AstIdMap.fromSource root).arena).findIdx? (fun q => q == SyntaxNodePtr.new a)
      = some ia
    rw [harena.symm] at hia
    exact hia
  · show ((AstIdMap.fromSource root).arena).findIdx? (fun q => q == SyntaxNodePtr.new n)
      = some (k + (((joinUpTo (i + 1) [root]).filter allocates).map
          SyntaxNodePtr.new).length)
    rw [harena]
    exact hib

/-- C1 witness: the round trip evaluated on a concrete tree at id 0. -/
theorem ast_id_roundtrip_witness :
    SyntaxNode.wf c1DemoRoot = true
    ∧ (AstIdMap.fromSource c1DemoRoot).arena.Nodup
    ∧ (AstIdMap.fromSource c1DemoRoot).get 0 = some ⟨⟨0, 8⟩, .FN_DEF⟩
    ∧ ∃ m, SyntaxNodePtr.toNode ⟨⟨0, 8⟩, .FN_DEF⟩ c1DemoRoot = some m
        ∧ (AstIdMap.fromSource c1DemoRoot).erasedAstId m = some 0 :=
  ⟨by decide, by decide, by decide,
    ast_id_roundtrip c1DemoRoot (by decide) (by decide) 0 ⟨⟨0, 8⟩, .FN_DEF⟩ (by decide)⟩

/-- C2 witness: in the concrete tree, the function node (id 0) is an
allocated ancestor of the nested macro call (id 2), and its id is
smaller. -/
theorem ast_id_bfs_ancestor_smaller_witness :
    (AstIdMap.fromSource c2DemoRoot).arena.Nodup
    ∧ (SyntaxNode.mk .FN_DEF ⟨0, 8⟩ [.mk .BLOCK_EXPR ⟨4, 8⟩ [.mk .MACRO_CALL ⟨5, 7⟩ []]])
        ∈ c2DemoRoot.nodesOf
    ∧ SyntaxNode.strictDesc
        (.mk .FN_DEF ⟨0, 8⟩ [.mk .BLOCK_EXPR ⟨4, 8⟩ [.mk .MACRO_CALL ⟨5, 7⟩ []]])
        (.mk .MACRO_CALL ⟨5, 7⟩ [])
    ∧ allocates (.mk .FN_DEF ⟨0, 8⟩ [.mk .BLOCK_EXPR ⟨4, 8⟩ [.mk .MACRO_CALL ⟨5, 7⟩ []]])
        = true
    ∧ allocates (.mk .MACRO_CALL ⟨5, 7⟩ []) = true
    ∧ ∃ ia ib, (AstIdMap.fromSource c2DemoRoot).erasedAstId
          (.mk .FN_DEF ⟨0, 8⟩ [.mk .BLOCK_EXPR ⟨4, 8⟩ [.mk .MACRO_CALL ⟨5, 7⟩ []]])
          = some ia
        ∧ (AstIdMap.fromSource c2DemoRoot).erasedAstId (.mk .MACRO_CALL ⟨5, 7⟩ [])
          = some ib
        ∧ ia < ib :=
  by
  have hdesc : SyntaxNode.strictDesc
      (.mk .FN_DEF ⟨0, 8⟩ [.mk .BLOCK_EXPR ⟨4, 8⟩ [.mk .MACRO_CALL ⟨5, 7⟩ []]])
      (.mk .MACRO_CALL ⟨5, 7⟩ []) :=
    ⟨.mk .BLOCK_EXPR ⟨4, 8⟩ [.mk .MACRO_CALL ⟨5, 7⟩ []], by decide, by decide⟩
  exact ⟨by decide, by decide, hdesc, by decide, by decide,
    ast_id_bfs_ancestor_smaller c2DemoRoot
      (.mk .FN_DEF ⟨0, 8⟩ [.mk .BLOCK_EXPR ⟨4, 8⟩ [.mk .MACRO_CALL ⟨5, 7⟩ []]])
      (.mk .MACRO_CALL ⟨5, 7⟩ [])
      (by decide) (by decide) hdesc (by decide) (by decide)⟩

/-- C8 counterexample: a live pointer taken from one tree does not resolve
against a different (well-formed) version of the tree: `to_node` panics
(modelled as `none`), refuting "for every root tree given to it,
`to_node` succeeds". -/
theorem ast_ptr_other_tree_counterexample :
    (AstIdMap.fromSource c8DemoRoot).get 0 = some ⟨⟨0, 3⟩, .MACRO_CALL⟩
    ∧ SyntaxNode.wf c8OtherRoot = true
    ∧ SyntaxNodePtr.toNode ⟨⟨0, 3⟩, .MACRO_CALL⟩ c8OtherRoot = none := by
  decide

/-- C8 (amended: resolvable against the tree the map was built from, not
against arbitrary other versions): for every live id of a map built from a
well-formed tree, the stored range-plus-kind pointer resolves through
`to_node` on that tree to a node carrying the recorded range and kind. -/
theorem ast_ptr_resolves_in_original_tree :
    ∀ (root : SyntaxNode), SyntaxNode.wf root = true →
    ∀ (id : Nat) (p : SyntaxNodePtr), (AstIdMap.fromSource root).get id = some p →
    ∃ m, SyntaxNodePtr.toNode p root = some m ∧ m.range = p.range ∧ m.kind = p.kind := by
  intro root hwf id p hget
  have hget' : (((bfsList root).filter allocates).map SyntaxNodePtr.new).get? id
      = some p := hget
  rw [List.get?_map] at hget'
  cases h2 : ((bfsList root).filter allocates).get? id with
  | none =>
    rw [h2] at hget'
    cases hget'
  | some n' =>
    rw [h2] at hget'
    have hp : SyntaxNodePtr.new n' = p := by simpa using hget'
    have hmemf : n' ∈ (bfsList root).filter allocates := List.get?_mem h2
    have hmemb : n' ∈ bfsList root := List.mem_of_mem_filter hmemf
    have hnode : n' ∈ root.nodesOf := by
      obtain ⟨t, ht, hnt⟩ := mem_bfsAux root.size [root] n' hmemb
      have : t = root := by simpa using ht
      subst this
      exact hnt
    have hne : n'.range.start < n'.range.stop :=
      SyntaxNode.range_nonempty_of_mem root.size root n' (Nat.le_refl _) hwf hnode
    obtain ⟨m, hfind, hmr, hmk⟩ :=
      toNode_finds root.size root n' (Nat.le_refl _) hwf hnode hne
    refine ⟨m, ?_, ?_, ?_⟩
    · rw [← hp]
      exact hfind
    · rw [← hp]
      exact hmr
    · rw [← hp]
      exact hmk

/-- C8 witness: the amended statement evaluated on the one-macro-call tree
at id 0. -/
theorem ast_ptr_resolves_in_original_tree_witness :
    SyntaxNode.wf c8DemoRoot = true
    ∧ (AstIdMap.fromSource c8DemoRoot).get 0 = some ⟨⟨0, 3⟩, .MACRO_CALL⟩
    ∧ ∃ m, SyntaxNodePtr.toNode ⟨⟨0, 3⟩, .MACRO_CALL⟩ c8DemoRoot = some m
        ∧ m.range = TextRange.mk 0 3 ∧ m.kind = SyntaxKind.MACRO_CALL :=
  ⟨by decide, by decide,
    ast_ptr_resolves_in_original_tree c8DemoRoot (by decide) 0 ⟨⟨0, 3⟩, .MACRO_CALL⟩
      (by decide)⟩
